import Mathlib

/-!
# Memory_Management: a shallow embedding of `allocator.c`

The allocator keeps one global doubly linked chain of block headers
(`g_head` ... `g_tail`), an `int page_size`, and two counters.  Each header is
100 bytes (`sizeof(struct mem_block)`, packed) and is followed by its payload.

Representation used here:

* the chain reachable from `g_head` through `next` is a `List mem_block`, in
  `next` order; `prev` is the predecessor in that list; a pointer to a node of
  the chain is its position in the list (`Option Nat`, `none` = `NULL`);
* every node records the address of its header (`addr`), so that the address
  arithmetic of the source (`block + 1`, `(void *)block + size`,
  `(struct mem_block *)ptr - 1`) can be followed literally;
* `size_t` / `unsigned long` values are naturals reduced modulo `2^64` (`u64`),
  `int` values are integers reduced to the signed 32-bit range (`i32`);
* the answers of the operating system (`getenv`, `getpagesize`, `mmap`) are
  inputs of the model: `Env` and the `os` argument of the allocation calls;
* payload bytes are not part of the state, so `memset` / `memcpy` on payloads
  (scribbling, zero filling, copying on resize) leave the state as it is; where a
  statement is about the bytes themselves, memory is a function from addresses to
  bytes next to the state (`malloc_frame`, `memcpy`).
-/

namespace Allocator

/-! ## Machine integers -/

/-- Conversion to `size_t` / `unsigned long`: reduction modulo `2^64`. -/
def u64 (z : Int) : Nat := (z % 18446744073709551616).toNat

/-- Conversion to `int`: reduction modulo `2^32` into `[-2^31, 2^31)`. -/
def i32 (z : Int) : Int := (z + 2147483648) % 4294967296 - 2147483648

/-! ## Data model (`allocator.h`, globals of `allocator.c`) -/

/-- One `struct mem_block` header together with the address it lives at.
`name` is `none` when the 32 name bytes were never written by the allocator
nor zero filled by the OS (a header carved out of a payload by `split_block`). -/
structure mem_block where
  addr : Nat
  name : Option (List Nat)
  size : Nat
  free : Bool
  region_id : Nat
deriving DecidableEq, Repr

/-- One successful `mmap` call: the region id given to its first block, the
address returned and the length requested. -/
structure region where
  id : Nat
  base : Nat
  len : Nat
deriving DecidableEq, Repr

/-- The globals `g_head`/`g_tail` (chain and tail address, `0` = `NULL`),
`page_size`, `g_allocations`, `g_regions`, and the mappings obtained so far. -/
structure State where
  blocks : List mem_block
  g_tail : Nat
  page_size : Int
  g_allocations : Nat
  g_regions : Nat
  mapped : List region
deriving DecidableEq, Repr

/-- The state at program start: `g_head = g_tail = NULL`, all counters `0`. -/
def State.empty : State :=
  { blocks := [], g_tail := 0, page_size := 0, g_allocations := 0, g_regions := 0, mapped := [] }

/-- What the process environment answers: `getenv("ALLOCATOR_ALGORITHM")` and
`getpagesize()`. -/
structure Env where
  algo : Option String
  pagesize : Int
deriving DecidableEq, Repr

/-- How a call ends: it returns (new state and returned pointer, `0` = `NULL`),
never returns (`hang`: the page rounding loop of `malloc` never ends, or
`perror` is entered with `alloc_mutex` held), writes through `NULL`
(`memset(NULL, ..)` in `calloc`), or reads a header that is not in the chain. -/
inductive Outcome where
  | ret (s : State) (p : Nat)
  | hang
  | null_write
  | wild
deriving DecidableEq, Repr

/-! ## Free space search -/

/-- Loop of `first_fit`: `i` is the position of `temp` in the chain. -/
def first_fit_loop : List mem_block → Nat → Nat → Option Nat
  | [], _, _ => none
  | temp :: rest, i, size =>
    if temp.size ≥ size ∧ temp.free = true then some i
    else first_fit_loop rest (i + 1) size

/-- `first_fit(size)`: first node with `size >= size` that is free. -/
def first_fit (s : State) (size : Nat) : Option Nat :=
  first_fit_loop s.blocks 0 size

/-- Loop of `worst_fit` with its locals `block` and `int len`; `temp->size > len`
compares in `size_t`, `len = temp->size` converts to `int`. -/
def worst_fit_loop : List mem_block → Nat → Option Nat → Int → Nat → Option Nat
  | [], _, block, _, _ => block
  | temp :: rest, i, block, len, size =>
    if temp.size ≥ size ∧ temp.size > u64 len ∧ temp.free = true then
      worst_fit_loop rest (i + 1) (some i) (i32 temp.size) size
    else worst_fit_loop rest (i + 1) block len size

/-- `worst_fit(size)`: `block = NULL`, `len = 0`, then the loop. -/
def worst_fit (s : State) (size : Nat) : Option Nat :=
  worst_fit_loop s.blocks 0 none 0 size

/-- Loop of `best_fit` with its locals `block` and `int len`; `temp->size < len`
compares in `size_t`, `len = temp->size` converts to `int`. -/
def best_fit_loop : List mem_block → Nat → Option Nat → Int → Nat → Option Nat
  | [], _, block, _, _ => block
  | temp :: rest, i, block, len, size =>
    if temp.size ≥ size ∧ temp.size < u64 len ∧ temp.free = true then
      best_fit_loop rest (i + 1) (some i) (i32 temp.size) size
    else best_fit_loop rest (i + 1) block len size

/-- `best_fit(size)`: `len = INT_MAX`, `block = NULL`, then the loop. -/
def best_fit (s : State) (size : Nat) : Option Nat :=
  best_fit_loop s.blocks 0 none 2147483647 size

/-- `reuse(size)`: `NULL` for size 0; the algorithm name defaults to
`"first_fit"` when the variable is unset; a name that matches none of the three
`strcmp` tests falls through to `return NULL`. -/
def reuse (env : Env) (s : State) (size : Nat) : Option Nat :=
  if size ≤ 0 then none
  else
    let algo : String := match env.algo with
      | none => "first_fit"
      | some a => a
    if algo = "first_fit" then first_fit s size
    else if algo = "worst_fit" then worst_fit s size
    else if algo = "best_fit" then best_fit s size
    else none

/-! ## Splitting -/

/-- `split_block(block, size)`.  Returns the new state and the position of the
second block (`none` = `NULL`).  `block->next == NULL` is "the node is the last
of the chain".  The header written at `block + size` gets the fields the source
assigns; its name bytes are not written. -/
def split_block (s : State) (block : Option Nat) (size : Nat) : State × Option Nat :=
  match block with
  | none => (s, none)
  | some i =>
    match s.blocks[i]? with
    | none => (s, none)
    | some b =>
      let x : Int := i32 (u64 ((b.size : Int) - size + 100))
      let y : Int := 108
      if x < y then (s, none)
      else if i + 1 = s.blocks.length then
        let page_size1 : Int := i32 (u64 ((u64 s.page_size : Int) - size + 100))
        if page_size1 < 108 then
          ({ s with page_size := i32 (u64 ((u64 page_size1 : Int) + size - 100)) }, none)
        else
          let page_size2 : Int := i32 (page_size1 - 100)
          let temp2 : mem_block :=
            { addr := b.addr + size, name := none, size := u64 page_size2, free := true,
              region_id := b.region_id }
          ({ s with
              blocks := s.blocks.take i ++ [{ b with size := u64 ((size : Int) - 100) }, temp2]
              g_tail := temp2.addr
              page_size := page_size2 }, some (i + 1))
      else
        let temp2 : mem_block :=
          { addr := b.addr + size, name := none, size := u64 ((b.size : Int) - size), free := true,
            region_id := b.region_id }
        ({ s with
            blocks := s.blocks.take i ++ [{ b with size := u64 ((size : Int) - 100) }, temp2]
              ++ s.blocks.drop (i + 1) }, some (i + 1))

/-! ## Merging -/

/-- First `if` of `merge_block` on the node at position `i`: when the `next` node exists, is
free and has the same `region_id`, it is unlinked and `block->size` becomes
`block->size + right->size + 100`. -/
def merge_block_right (bs : List mem_block) (i : Nat) : List mem_block :=
  match bs[i]?, bs[i + 1]? with
  | some block, some right =>
    if right.free = true ∧ right.region_id = block.region_id then
      bs.take i ++ { block with size := u64 ((block.size : Int) + right.size + 100) }
        :: bs.drop (i + 2)
    else bs
  | _, _ => bs

/-- Second `if` of `merge_block` on the node at position `i`: when the `prev` node exists, is
free and has the same `region_id`, the node is unlinked, `left->size` becomes
`left->size + block->size + 100` and `left` is returned; otherwise the node itself is. -/
def merge_block_left (bs : List mem_block) : Nat → List mem_block × Nat
  | 0 => (bs, 0)
  | j + 1 =>
    match bs[j]?, bs[j + 1]? with
    | some left, some block =>
      if left.free = true ∧ left.region_id = block.region_id then
        (bs.take j ++ { left with size := u64 ((left.size : Int) + block.size + 100) }
          :: bs.drop (j + 2), j)
      else (bs, j + 1)
    | _, _ => (bs, j + 1)

/-- `merge_block(block)`: `NULL` for `NULL`; otherwise the merge with the right neighbour, then
the merge with the left neighbour.  `g_tail` and `page_size` are not assigned. -/
def merge_block (s : State) (block : Option Nat) : State × Option Nat :=
  match block with
  | none => (s, none)
  | some i =>
    match s.blocks[i]? with
    | none => (s, none)
    | some _ =>
      ({ s with blocks := (merge_block_left (merge_block_right s.blocks i) i).1 },
        some (merge_block_left (merge_block_right s.blocks i) i).2)

/-! ## The C memory API -/

/-- The loop `while (s < y) s = s + getpagesize();` of `malloc`, with `int`
addition wrapping.  A run of `2^32` steps without exit has repeated a value of
`s`, so `none` means the loop never exits. -/
def page_loop : Nat → Int → Int → Int → Option Int
  | 0, _, _, _ => none
  | fuel + 1, s, y, ps => if s < y then page_loop fuel (i32 (s + ps)) y ps else some s

/-- Number of loop steps granted to `page_loop`: `2^32`, the number of values an
`int` can take. -/
def page_fuel : Nat := 4294967296

/-- Tail of `malloc` after a block was found or mapped: `g_allocations++`,
`block->free = false`, `split_block(block, size + sizeof(struct mem_block))`,
`return block + 1`. -/
def malloc_finish (s : State) (i : Nat) (size : Nat) : Outcome :=
  match s.blocks[i]? with
  | none => Outcome.wild
  | some b =>
    let s1 : State :=
      { s with
          g_allocations := s.g_allocations + 1
          blocks := s.blocks.take i ++ { b with free := false } :: s.blocks.drop (i + 1) }
    Outcome.ret (split_block s1 (some i) (u64 ((size : Int) + 100))).1 (b.addr + 100)

/-- The size after the rounding step of `malloc`: when `(int)(size + 100)` is
not a multiple of 8, `size + 100` is raised to the next multiple of 8 and the
header size is taken off again (all in `size_t`). -/
def aligned_size (size : Nat) : Nat :=
  let y : Int := i32 (u64 ((size : Int) + 100))
  let t : Nat := u64 ((size : Int) + 100)
  if y % 8 ≠ 0 then u64 ((t : Int) + (8 - (t % 8 : Nat)) - 100) else size

/-- The `mmap` branch of `malloc` for a mapping of `mem_size` bytes granted at
address `a` (anonymous pages, zero filled): `page_size = mem_size`, the new
block is linked after `g_tail` and becomes the last node of the chain,
`page_size = page_size - 100`, `region_id = ++g_regions`, `size = page_size`. -/
def map_region (s : State) (a mem_size : Nat) : State :=
  let page_size1 : Int := i32 (i32 mem_size - 100)
  let block : mem_block :=
    { addr := a, name := some (List.replicate 32 0), size := u64 page_size1, free := false,
      region_id := s.g_regions + 1 }
  { blocks := if s.blocks.isEmpty = true ∧ s.g_tail = 0 then [block] else s.blocks ++ [block]
    g_tail := a
    page_size := page_size1
    g_allocations := s.g_allocations
    g_regions := s.g_regions + 1
    mapped := s.mapped ++ [{ id := s.g_regions + 1, base := a, len := mem_size }] }

/-- Second half of `malloc`, on the answer of `reuse(size)`: a block that was
found is used; otherwise `mmap` is called, `os` being its answer (`some a` for a
mapping at address `a`, `none` for `MAP_FAILED`).  On `MAP_FAILED` the source
calls `perror("mmap")` before `pthread_mutex_unlock(&alloc_mutex)`: the library
is the allocator of the whole process, `perror` allocates and releases its
stream through `malloc` and `free`, and both begin by locking the non-recursive
`alloc_mutex` that this call still holds, so the call does not come back and the
`return NULL` that follows is not reached. -/
def malloc_place (s : State) (size1 mem_size : Nat) (os : Option Nat) : Option Nat → Outcome
  | some i => malloc_finish s i size1
  | none =>
    match os with
    | none => Outcome.hang
    | some a => malloc_finish (map_region s a mem_size) s.blocks.length size1

/-- `malloc` once the page rounding loop has ended with `s = sfin` (`none`: the
loop never ends): `mem_size = s`, then `reuse(size)` with the rounded size. -/
def malloc_sized (env : Env) (os : Option Nat) (s : State) (size1 : Nat) : Option Int → Outcome
  | none => Outcome.hang
  | some sfin => malloc_place s size1 (u64 sfin) os (reuse env s size1)

/-- `malloc(size)`: `y = size + 100` as an `int`, the rounding of `size`, the page
rounding loop from `s = 0`, then the search and the rest of the function. -/
def malloc (env : Env) (os : Option Nat) (s : State) (size : Nat) : Outcome :=
  malloc_sized env os s (aligned_size size)
    (page_loop page_fuel 0 (i32 (u64 ((size : Int) + 100))) env.pagesize)

/-- `block->free = true` for the header at address `block`. -/
def set_free (bs : List mem_block) (block : Nat) : List mem_block :=
  bs.map (fun b => if b.addr = block then { b with free := true } else b)

/-- `free(ptr)`: nothing for `NULL`; otherwise the header at `ptr - 100` is
marked free when that address is not `NULL`.  The merge and unmap code of the
source is inside a comment and does not run. -/
def free (s : State) (ptr : Nat) : State :=
  if ptr = 0 then s
  else
    let block : Nat := ptr - 100
    if block ≠ 0 then { s with blocks := set_free s.blocks block } else s

/-- What `strncpy(dst, name, 32)` leaves in the 32 name bytes: the first 32
characters of `name`, zero padded when `name` is shorter. -/
def strncpy32 (name : List Nat) : List Nat :=
  name.take 32 ++ List.replicate (32 - name.length) 0

/-- Second half of `malloc_name`: `strncpy(block->name, name, 32)` on the header
at `ptr - 100` when `malloc` returned a pointer that is not `NULL`. -/
def malloc_name_set (name : List Nat) : Outcome → Outcome
  | Outcome.ret s1 ptr =>
    if ptr ≠ 0 then
      Outcome.ret
        { s1 with blocks := s1.blocks.map (fun b =>
            if b.addr = ptr - 100 then { b with name := some (strncpy32 name) } else b) } ptr
    else Outcome.ret s1 ptr
  | Outcome.hang => Outcome.hang
  | Outcome.null_write => Outcome.null_write
  | Outcome.wild => Outcome.wild

/-- `malloc_name(size, name)`: `malloc(size)`, then the name is copied. -/
def malloc_name (env : Env) (os : Option Nat) (s : State) (size : Nat) (name : List Nat) :
    Outcome :=
  malloc_name_set name (malloc env os s size)

/-- Second half of `calloc`: `memset(block, 0, n)` with no test of `block`; with
`block == NULL` and `n > 0` this writes through `NULL`. -/
def calloc_fill (n : Nat) : Outcome → Outcome
  | Outcome.ret s1 block => if block = 0 ∧ n ≠ 0 then Outcome.null_write else Outcome.ret s1 block
  | Outcome.hang => Outcome.hang
  | Outcome.null_write => Outcome.null_write
  | Outcome.wild => Outcome.wild

/-- `calloc(nmemb, size)`: `malloc(nmemb * size)` with the product taken in
`size_t`, then the zero filling. -/
def calloc (env : Env) (os : Option Nat) (s : State) (nmemb size : Nat) : Outcome :=
  calloc_fill (u64 ((nmemb : Int) * size)) (malloc env os s (u64 ((nmemb : Int) * size)))

/-- End of `realloc` after `temp = malloc(size)`: when `temp` is not `NULL` the
payload is copied, the old block at `ptr - 100` is marked free and `temp` is
returned; otherwise `NULL` is returned. -/
def realloc_move (ptr : Nat) : Outcome → Outcome
  | Outcome.ret s1 temp =>
    if temp ≠ 0 then Outcome.ret { s1 with blocks := set_free s1.blocks (ptr - 100) } temp
    else Outcome.ret s1 0
  | Outcome.hang => Outcome.hang
  | Outcome.null_write => Outcome.null_write
  | Outcome.wild => Outcome.wild

/-- `realloc(ptr, size)`: `malloc(size)` for a `NULL` pointer; `free(ptr)` and
`NULL` for size 0; the same pointer when `block->size >= size`; otherwise a new
allocation. -/
def realloc (env : Env) (os : Option Nat) (s : State) (ptr size : Nat) : Outcome :=
  if ptr = 0 then malloc env os s size
  else if size = 0 then Outcome.ret (free s ptr) 0
  else
    match s.blocks.find? (fun b => b.addr = ptr - 100) with
    | none => Outcome.wild
    | some block =>
      if block.size ≥ size then Outcome.ret s ptr
      else realloc_move ptr (malloc env os s size)

/-! ## Memory contents -/

/-- One call of the public interface, with the answer `mmap` gives if the call
reaches it. -/
inductive Call where
  | malloc (size : Nat) (os : Option Nat)
  | malloc_name (size : Nat) (name : List Nat) (os : Option Nat)
  | calloc (nmemb size : Nat) (os : Option Nat)
  | realloc (ptr size : Nat) (os : Option Nat)
  | free (ptr : Nat)
deriving DecidableEq, Repr

/-- Executes one call (`free` returns nothing; its pointer is reported as `0`). -/
def Call.run (env : Env) (s : State) : Call → Outcome
  | Call.malloc size os => Allocator.malloc env os s size
  | Call.malloc_name size name os => Allocator.malloc_name env os s size name
  | Call.calloc nmemb size os => Allocator.calloc env os s nmemb size
  | Call.realloc ptr size os => Allocator.realloc env os s ptr size
  | Call.free ptr => Outcome.ret (Allocator.free s ptr) 0

/-- The size a call hands to `malloc`, when it has one. -/
def Call.request : Call → Option Nat
  | Call.malloc size _ => some size
  | Call.malloc_name size _ _ => some size
  | Call.calloc nmemb size _ => some (u64 ((nmemb : Int) * size))
  | Call.realloc _ size _ => some size
  | Call.free _ => none

/-- The answer of `mmap` carried by a call. -/
def Call.os : Call → Option Nat
  | Call.malloc _ os => os
  | Call.malloc_name _ _ os => os
  | Call.calloc _ _ os => os
  | Call.realloc _ _ os => os
  | Call.free _ => none

/-- The request fits an `int` together with the header: `size + 100 < 2^31`. -/
def Call.small (c : Call) : Prop :=
  ∀ n : Nat, c.request = some n → n + 100 < 2147483648

/-- A granted mapping starts at a non-null multiple of the page size. -/
def Call.page_aligned (ps : Int) (c : Call) : Prop :=
  ∀ a : Nat, c.os = some a → a ≠ 0 ∧ ps ∣ (a : Int)

/-- States reachable from the empty state by calls that return, with page size
`ps`, each call satisfying `P`; the strategy variable may change between calls. -/
inductive Reach (ps : Int) (P : Call → Prop) : State → Prop
  | init : Reach ps P State.empty
  | step (env : Env) (c : Call) (s s1 : State) (p : Nat) :
      Reach ps P s → env.pagesize = ps → P c → c.run env s = Outcome.ret s1 p → Reach ps P s1

/-- Runs a sequence of calls under one environment; `none` when a call does not
return.  The result carries the final state and the pointers returned, in order. -/
def run_calls (env : Env) : State → List Call → Option (State × List Nat)
  | s, [] => some (s, [])
  | s, c :: cs =>
    match c.run env s with
    | Outcome.ret s1 p => (run_calls env s1 cs).map (fun r => (r.1, p :: r.2))
    | _ => none

/-! ## Invariants -/

/-- Every header of the chain lies at a non-null address that is a multiple of 8. -/
def Aligned (s : State) : Prop :=
  ∀ b ∈ s.blocks, b.addr ≠ 0 ∧ 8 ∣ b.addr

/-- Bytes occupied by the blocks of region `rid`: header (100) plus `size` field,
summed over the blocks that carry this `region_id`. -/
def region_bytes (bs : List mem_block) (rid : Nat) : Nat :=
  ((bs.filter (fun b => b.region_id = rid)).map (fun b => b.size + 100)).sum

/-- Sum of the `size` fields alone over the blocks that carry `region_id = rid`. -/
def region_sizes (bs : List mem_block) (rid : Nat) : Nat :=
  ((bs.filter (fun b => b.region_id = rid)).map (fun b => b.size)).sum

/-- Bookkeeping invariant of the globals: sizes fit an `int`; `page_size` and
`g_tail` describe the last node; every block belongs to a recorded mapping;
mappings are numbered `1 .. g_regions`; and the blocks of each region take up
exactly the bytes that were mapped for it. -/
structure WF (s : State) : Prop where
  sizes : ∀ b ∈ s.blocks, b.size + 100 < 2147483648
  tail : ∀ b : mem_block, s.blocks.getLast? = some b → s.page_size = b.size ∧ s.g_tail = b.addr
  ids : ∀ b ∈ s.blocks, ∃ r ∈ s.mapped, r.id = b.region_id
  mapped_ids : s.mapped.map (fun r => r.id) = List.range' 1 s.g_regions
  bytes : ∀ r ∈ s.mapped, region_bytes s.blocks r.id = r.len

/-- Two neighbours of the chain lie back to back in one region, or the second one opens a
region with a larger id at the base address of that region's mapping. -/
def linked (mapped : List region) (x y : mem_block) : Prop :=
  (y.region_id = x.region_id ∧ y.addr = x.addr + 100 + x.size) ∨
  (x.region_id < y.region_id ∧ ∃ r ∈ mapped, r.id = y.region_id ∧ r.base = y.addr)

/-- Layout invariant: the first node of the chain lies at the base of its region, and every
two neighbours are `linked`. -/
structure Layout (s : State) : Prop where
  head : ∀ b : mem_block, s.blocks.head? = some b →
    ∃ r ∈ s.mapped, r.id = b.region_id ∧ r.base = b.addr
  chain : List.Chain' (linked s.mapped) s.blocks

/-- A chain whose only block is free and has size `INT_MAX`. -/
def chain_int_max : State :=
  { blocks := [{ addr := 4096, name := none, size := 2147483647, free := true, region_id := 1 }],
    g_tail := 4096, page_size := 2147483647, g_allocations := 1, g_regions := 1,
    mapped := [{ id := 1, base := 4096, len := 2147483747 }] }

/-- A chain of two free blocks, the first of size `2^32`, the second of size 8. -/
def chain_wide_block : State :=
  { blocks := [{ addr := 4096, name := none, size := 4294967296, free := true, region_id := 1 },
               { addr := 4294971492, name := none, size := 8, free := true, region_id := 1 }],
    g_tail := 4294971492, page_size := 8, g_allocations := 2, g_regions := 1,
    mapped := [{ id := 1, base := 4096, len := 4294967504 }] }

/-- The state after `malloc(64)` on the empty state, page size 4096, with the
mapping granted at address 4096. -/
def st_one_alloc : State :=
  { blocks := [{ addr := 4096, name := some (List.replicate 32 0), size := 68, free := false,
                 region_id := 1 },
               { addr := 4264, name := none, size := 3828, free := true, region_id := 1 }],
    g_tail := 4264, page_size := 3828, g_allocations := 1, g_regions := 1,
    mapped := [{ id := 1, base := 4096, len := 4096 }] }

/-- Scenario state: after A = `malloc(64)` on the empty state, region mapped at `a`. -/
def scenario_A (a : Nat) : State :=
  { blocks := [{ addr := a, name := some (List.replicate 32 0), size := 68, free := false,
                 region_id := 1 },
               { addr := a + 168, name := none, size := 3828, free := true, region_id := 1 }],
    g_tail := a + 168, page_size := 3828, g_allocations := 1, g_regions := 1,
    mapped := [{ id := 1, base := a, len := 4096 }] }

/-- Scenario state: after A = `malloc(64)` and B = `malloc(64)`; `freeA` tells whether A has
been released and `n` is the number of allocations made. -/
def scenario_AB (a : Nat) (freeA : Bool) (n : Nat) : State :=
  { blocks := [{ addr := a, name := some (List.replicate 32 0), size := 68, free := freeA,
                 region_id := 1 },
               { addr := a + 168, name := none, size := 68, free := false, region_id := 1 },
               { addr := a + 168 + 168, name := none, size := 3660, free := true,
                 region_id := 1 }],
    g_tail := a + 168 + 168, page_size := 3660, g_allocations := n, g_regions := 1,
    mapped := [{ id := 1, base := a, len := 4096 }] }

/-- The state inside `malloc(64)` and `malloc(3796)` on the empty state (page size 4096, region
mapped at 4096) at the call of `split_block`: one in-use block that fills the region. -/
def st_whole_region : State :=
  { blocks := [{ addr := 4096, name := some (List.replicate 32 0), size := 3996, free := false,
                 region_id := 1 }],
    g_tail := 4096, page_size := 3996, g_allocations := 1, g_regions := 1,
    mapped := [{ id := 1, base := 4096, len := 4096 }] }

/-- Decidable form of `Call.small`. -/
def Call.small_check (c : Call) : Bool :=
  match c.request with
  | none => true
  | some n => decide (n + 100 < 2147483648)

/-- The state after `malloc(64)` twice and `malloc(3996)` twice (regions mapped at 4096, 8192
and 12288, page size 4096, `first_fit`) and the release of all four blocks: free blocks of
sizes 68, 68, 3660, 3996, 3996. -/
def st_five_free : State :=
  { blocks := [{ addr := 4096, name := some (List.replicate 32 0), size := 68, free := true,
                 region_id := 1 },
               { addr := 4264, name := none, size := 68, free := true, region_id := 1 },
               { addr := 4432, name := none, size := 3660, free := true, region_id := 1 },
               { addr := 8192, name := some (List.replicate 32 0), size := 3996, free := true,
                 region_id := 2 },
               { addr := 12288, name := some (List.replicate 32 0), size := 3996, free := true,
                 region_id := 3 }],
    g_tail := 12288, page_size := 3996, g_allocations := 4, g_regions := 3,
    mapped := [{ id := 1, base := 4096, len := 4096 }, { id := 2, base := 8192, len := 4096 },
               { id := 3, base := 12288, len := 4096 }] }

/-- The calls that lead from the empty state to `st_five_free`. -/
def calls_five_free : List Call :=
  [Call.malloc 64 (some 4096), Call.malloc 64 none, Call.malloc 3996 (some 8192),
    Call.malloc 3996 (some 12288), Call.free 4196, Call.free 4364, Call.free 8292,
    Call.free 12388]

/-- Strategy `first_fit`, page size 4096. -/
def env_first : Env := { algo := some "first_fit", pagesize := 4096 }

/-- Strategy `best_fit`, page size 4096. -/
def env_best : Env := { algo := some "best_fit", pagesize := 4096 }

/-- Strategy `worst_fit`, page size 4096. -/
def env_worst : Env := { algo := some "worst_fit", pagesize := 4096 }

/-- Strategy variable unset, page size 4096. -/
def env_unset : Env := { algo := none, pagesize := 4096 }

/-- Strategy variable set to a name the allocator does not know, page size 4096. -/
def env_unknown : Env := { algo := some "next_fit", pagesize := 4096 }

/-! ## Arithmetic of the machine integers -/

/-- Truncating to 32 bits after truncating to 64 bits is truncating to 32 bits. -/
theorem i32_u64 (z : Int) : i32 (u64 z) = i32 z := by
  unfold u64 i32
  omega

/-- A value in the `int` range is unchanged by the conversion to `int`. -/
theorem i32_id (z : Int) (h0 : -2147483648 ≤ z) (h1 : z < 2147483648) : i32 z = z := by
  unfold i32
  omega

/-- A value in the `size_t` range is unchanged by the conversion to `size_t`. -/
theorem u64_id (z : Int) (h0 : 0 ≤ z) (h1 : z < 18446744073709551616) : (u64 z : Int) = z := by
  unfold u64
  omega

/-- A natural number in the `size_t` range is unchanged by the conversion to `size_t`. -/
theorem u64_nat (n : Nat) (h : n < 18446744073709551616) : u64 (n : Int) = n := by
  unfold u64
  omega

/-- The difference of two naturals, when it is not negative, as a `size_t`. -/
theorem u64_sub (a b : Nat) (h : b ≤ a) (ha : a < 18446744073709551616) :
    u64 ((a : Int) - b) = a - b := by
  unfold u64
  omega

/-- The test value `x` of `split_block` when the sizes fit an `int`. -/
theorem split_x_exact (bs sz : Nat) (hb : bs + 100 < 2147483648) (hs : sz < 2147483648) :
    i32 (u64 ((bs : Int) - sz + 100)) = (bs : Int) - sz + 100 := by
  rw [i32_u64, i32_id _ (by omega) (by omega)]

/-! ## Free space search: what the three loops compute -/

/-- Invariant of the `best_fit` loop: `L` is the final value of `len`. -/
theorem best_fit_loop_spec (n : Nat) : ∀ (l : List mem_block) (i : Nat) (blk : Option Nat) (len : Int),
    0 ≤ len → len ≤ 2147483647 →
    ∃ L : Int, 0 ≤ L ∧ L ≤ len ∧
      (∀ (j : Nat) (c : mem_block), l[j]? = some c → c.free = true → n ≤ c.size → L ≤ c.size) ∧
      ((best_fit_loop l i blk len n = blk ∧ L = len) ∨
       (∃ (j : Nat) (b : mem_block), best_fit_loop l i blk len n = some (i + j) ∧ l[j]? = some b ∧
          b.free = true ∧ n ≤ b.size ∧ (b.size : Int) = L ∧ L < len ∧
          ∀ (j' : Nat) (c : mem_block), j' < j → l[j']? = some c → c.free = true → n ≤ c.size →
            L < c.size)) := by
  intro l
  induction l with
  | nil =>
    intro i blk len h0 h1
    refine ⟨len, h0, le_refl _, ?_, Or.inl ⟨rfl, rfl⟩⟩
    intro j c hj
    simp at hj
  | cons temp rest ih =>
    intro i blk len h0 h1
    have hu : (u64 len : Int) = len := by unfold u64; omega
    by_cases hc : temp.size ≥ n ∧ temp.size < u64 len ∧ temp.free = true
    · have hsz : i32 (temp.size : Int) = temp.size := by unfold i32; omega
      have hstep : best_fit_loop (temp :: rest) i blk len n
          = best_fit_loop rest (i + 1) (some i) (temp.size : Int) n := by
        rw [best_fit_loop, if_pos hc, hsz]
      obtain ⟨L, hL0, hLle, hmin, hres⟩ := ih (i + 1) (some i) (temp.size : Int) (by omega) (by omega)
      refine ⟨L, hL0, by omega, ?_, Or.inr ?_⟩
      · intro j c hj hf hn
        cases j with
        | zero =>
          simp at hj
          subst hj
          exact hLle
        | succ j =>
          simp at hj
          exact hmin j c hj hf hn
      · rcases hres with ⟨hr, hLeq⟩ | ⟨j, b, hr, hb, hbf, hbn, hbL, hlt, hfirst⟩
        · have e1 : best_fit_loop (temp :: rest) i blk len n = some (i + 0) := by
            rw [hstep, hr, Nat.add_zero]
          have e2 : (temp :: rest)[0]? = some temp := by simp
          have e3 : (temp.size : Int) = L := by omega
          have e4 : L < len := by omega
          refine ⟨0, temp, e1, e2, hc.2.2, hc.1, e3, e4, ?_⟩
          intro j' c hj'
          omega
        · refine ⟨j + 1, b, by rw [hstep, hr, Nat.add_assoc, Nat.add_comm 1 j], by simpa using hb, hbf, hbn, hbL,
            by omega, ?_⟩
          intro j' c hj' hc' hf hn
          cases j' with
          | zero =>
            simp at hc'
            subst hc'
            exact hlt
          | succ j' =>
            simp at hc'
            exact hfirst j' c (by omega) hc' hf hn
    · have hstep : best_fit_loop (temp :: rest) i blk len n
          = best_fit_loop rest (i + 1) blk len n := by
        rw [best_fit_loop, if_neg hc]
      have htemp : temp.free = true → n ≤ temp.size → len ≤ temp.size := by
        intro hf hn
        by_contra hlt
        exact hc ⟨hn, by omega, hf⟩
      obtain ⟨L, hL0, hLle, hmin, hres⟩ := ih (i + 1) blk len h0 h1
      refine ⟨L, hL0, hLle, ?_, ?_⟩
      · intro j c hj hf hn
        cases j with
        | zero =>
          simp at hj
          subst hj
          have := htemp hf hn
          omega
        | succ j =>
          simp at hj
          exact hmin j c hj hf hn
      · rcases hres with ⟨hr, hLeq⟩ | ⟨j, b, hr, hb, hbf, hbn, hbL, hlt, hfirst⟩
        · exact Or.inl ⟨by rw [hstep, hr], hLeq⟩
        · refine Or.inr ⟨j + 1, b, by rw [hstep, hr, Nat.add_assoc, Nat.add_comm 1 j], by simpa using hb, hbf, hbn,
            hbL, hlt, ?_⟩
          intro j' c hj' hc' hf hn
          cases j' with
          | zero =>
            simp at hc'
            subst hc'
            have := htemp hf hn
            omega
          | succ j' =>
            simp at hc'
            exact hfirst j' c (by omega) hc' hf hn


/-- Invariant of the `worst_fit` loop: `L` is the final value of `len`. -/
theorem worst_fit_loop_spec (n : Nat) : ∀ (l : List mem_block) (i : Nat) (blk : Option Nat) (len : Int),
    0 ≤ len → len < 2147483648 →
    (∀ c ∈ l, c.free = true → c.size < 2147483648) →
    ∃ L : Int, len ≤ L ∧ L < 2147483648 ∧
      (∀ (j : Nat) (c : mem_block), l[j]? = some c → c.free = true → n ≤ c.size → (c.size : Int) ≤ L) ∧
      ((worst_fit_loop l i blk len n = blk ∧ L = len) ∨
       (∃ (j : Nat) (b : mem_block), worst_fit_loop l i blk len n = some (i + j) ∧ l[j]? = some b ∧
          b.free = true ∧ n ≤ b.size ∧ (b.size : Int) = L ∧ len < L ∧
          ∀ (j' : Nat) (c : mem_block), j' < j → l[j']? = some c → c.free = true → n ≤ c.size →
            (c.size : Int) < L)) := by
  intro l
  induction l with
  | nil =>
    intro i blk len h0 h1 _
    refine ⟨len, le_refl _, h1, ?_, Or.inl ⟨rfl, rfl⟩⟩
    intro j c hj
    simp at hj
  | cons temp rest ih =>
    intro i blk len h0 h1 hsz
    have hu : (u64 len : Int) = len := by unfold u64; omega
    have hrest : ∀ c ∈ rest, c.free = true → c.size < 2147483648 :=
      fun c hc => hsz c (List.mem_cons_of_mem _ hc)
    by_cases hc : temp.size ≥ n ∧ temp.size > u64 len ∧ temp.free = true
    · have hlt : temp.size < 2147483648 := hsz temp (List.mem_cons_self _ _) hc.2.2
      have hsz' : i32 (temp.size : Int) = temp.size := by unfold i32; omega
      have hstep : worst_fit_loop (temp :: rest) i blk len n
          = worst_fit_loop rest (i + 1) (some i) (temp.size : Int) n := by
        rw [worst_fit_loop, if_pos hc, hsz']
      obtain ⟨L, hLge, hLlt, hmax, hres⟩ :=
        ih (i + 1) (some i) (temp.size : Int) (by omega) (by omega) hrest
      refine ⟨L, by omega, hLlt, ?_, Or.inr ?_⟩
      · intro j c hj hf hn
        cases j with
        | zero =>
          simp at hj
          subst hj
          exact hLge
        | succ j =>
          simp at hj
          exact hmax j c hj hf hn
      · rcases hres with ⟨hr, hLeq⟩ | ⟨j, b, hr, hb, hbf, hbn, hbL, hgt, hfirst⟩
        · have e1 : worst_fit_loop (temp :: rest) i blk len n = some (i + 0) := by
            rw [hstep, hr, Nat.add_zero]
          have e2 : (temp :: rest)[0]? = some temp := by simp
          have e3 : (temp.size : Int) = L := by omega
          have e4 : len < L := by omega
          refine ⟨0, temp, e1, e2, hc.2.2, hc.1, e3, e4, ?_⟩
          intro j' c hj'
          omega
        · refine ⟨j + 1, b, by rw [hstep, hr, Nat.add_assoc, Nat.add_comm 1 j], by simpa using hb,
            hbf, hbn, hbL, by omega, ?_⟩
          intro j' c hj' hc' hf hn
          cases j' with
          | zero =>
            simp at hc'
            subst hc'
            exact hgt
          | succ j' =>
            simp at hc'
            exact hfirst j' c (by omega) hc' hf hn
    · have hstep : worst_fit_loop (temp :: rest) i blk len n
          = worst_fit_loop rest (i + 1) blk len n := by
        rw [worst_fit_loop, if_neg hc]
      have htemp : temp.free = true → n ≤ temp.size → (temp.size : Int) ≤ len := by
        intro hf hn
        by_contra hlt
        exact hc ⟨hn, by omega, hf⟩
      obtain ⟨L, hLge, hLlt, hmax, hres⟩ := ih (i + 1) blk len h0 h1 hrest
      refine ⟨L, hLge, hLlt, ?_, ?_⟩
      · intro j c hj hf hn
        cases j with
        | zero =>
          simp at hj
          subst hj
          have := htemp hf hn
          omega
        | succ j =>
          simp at hj
          exact hmax j c hj hf hn
      · rcases hres with ⟨hr, hLeq⟩ | ⟨j, b, hr, hb, hbf, hbn, hbL, hgt, hfirst⟩
        · exact Or.inl ⟨by rw [hstep, hr], hLeq⟩
        · refine Or.inr ⟨j + 1, b, by rw [hstep, hr, Nat.add_assoc, Nat.add_comm 1 j],
            by simpa using hb, hbf, hbn, hbL, hgt, ?_⟩
          intro j' c hj' hc' hf hn
          cases j' with
          | zero =>
            simp at hc'
            subst hc'
            have := htemp hf hn
            omega
          | succ j' =>
            simp at hc'
            exact hfirst j' c (by omega) hc' hf hn

/-- What `best_fit` computes on any chain: `best_fit(n)` returns `NULL` exactly when no free block has
`n <= size < INT_MAX`; a returned block is free, has `size >= n`, has the smallest size among
the free blocks with `size >= n`, and is the earliest block of that size. -/
theorem best_fit_smallest_earliest (s : State) (n : Nat) :
    (best_fit s n = none ↔
      ∀ b ∈ s.blocks, b.free = true → n ≤ b.size → 2147483647 ≤ b.size) ∧
    (∀ i : Nat, best_fit s n = some i →
      ∃ b : mem_block, s.blocks[i]? = some b ∧ b.free = true ∧ n ≤ b.size ∧
        ∀ (j : Nat) (c : mem_block), s.blocks[j]? = some c → c.free = true → n ≤ c.size →
          b.size ≤ c.size ∧ (c.size = b.size → i ≤ j)) := by
  obtain ⟨L, hL0, hLle, hmin, hres⟩ :=
    best_fit_loop_spec n s.blocks 0 none 2147483647 (by omega) (by omega)
  rcases hres with ⟨hr, hLeq⟩ | ⟨j, b, hr, hb, hbf, hbn, hbL, hlt, hfirst⟩
  · have hnone : best_fit s n = none := hr
    refine ⟨⟨fun _ b hb hf hn => ?_, fun _ => hnone⟩, fun i hi => ?_⟩
    · obtain ⟨j, hj⟩ := List.mem_iff_getElem?.mp hb
      have := hmin j b hj hf hn
      omega
    · rw [hnone] at hi
      cases hi
  · have hsome : best_fit s n = some j := by
      have : best_fit s n = some (0 + j) := hr
      rwa [Nat.zero_add] at this
    refine ⟨⟨fun h => ?_, fun h => ?_⟩, fun i hi => ?_⟩
    · rw [hsome] at h
      cases h
    · have := h b (List.mem_iff_getElem?.mpr ⟨j, hb⟩) hbf hbn
      omega
    · rw [hsome] at hi
      cases hi
      refine ⟨b, hb, hbf, hbn, fun j' c hc hf hn => ⟨?_, fun heq => ?_⟩⟩
      · have := hmin j' c hc hf hn
        omega
      · by_contra hlt'
        have := hfirst j' c (by omega) hc hf hn
        omega

/-- What `worst_fit` computes when every free block has size below `2^31` and `n > 0`:
`worst_fit(n)` returns `NULL` exactly when no free block has `size >= n`; a returned block is
free, has `size >= n`, has the largest size among the free blocks with `size >= n`, and is the
earliest block of that size. -/
theorem worst_fit_largest_earliest (s : State) (n : Nat) (hn : 0 < n)
    (hsz : ∀ b ∈ s.blocks, b.free = true → b.size < 2147483648) :
    (worst_fit s n = none ↔ ∀ b ∈ s.blocks, b.free = true → b.size < n) ∧
    (∀ i : Nat, worst_fit s n = some i →
      ∃ b : mem_block, s.blocks[i]? = some b ∧ b.free = true ∧ n ≤ b.size ∧
        ∀ (j : Nat) (c : mem_block), s.blocks[j]? = some c → c.free = true → n ≤ c.size →
          c.size ≤ b.size ∧ (c.size = b.size → i ≤ j)) := by
  obtain ⟨L, hLge, hLlt, hmax, hres⟩ :=
    worst_fit_loop_spec n s.blocks 0 none 0 (by omega) (by omega) hsz
  rcases hres with ⟨hr, hLeq⟩ | ⟨j, b, hr, hb, hbf, hbn, hbL, hgt, hfirst⟩
  · have hnone : worst_fit s n = none := hr
    refine ⟨⟨fun _ b hb hf => ?_, fun _ => hnone⟩, fun i hi => ?_⟩
    · obtain ⟨j, hj⟩ := List.mem_iff_getElem?.mp hb
      by_contra hge
      have := hmax j b hj hf (by omega)
      omega
    · rw [hnone] at hi
      cases hi
  · have hsome : worst_fit s n = some j := by
      have : worst_fit s n = some (0 + j) := hr
      rwa [Nat.zero_add] at this
    refine ⟨⟨fun h => ?_, fun h => ?_⟩, fun i hi => ?_⟩
    · rw [hsome] at h
      cases h
    · have := h b (List.mem_iff_getElem?.mpr ⟨j, hb⟩) hbf
      omega
    · rw [hsome] at hi
      cases hi
      refine ⟨b, hb, hbf, hbn, fun j' c hc hf hn => ⟨?_, fun heq => ?_⟩⟩
      · have := hmax j' c hc hf hn
        omega
      · by_contra hlt'
        have := hfirst j' c (by omega) hc hf hn
        omega

/-- On a chain the allocator itself never builds (a lone free block of size `INT_MAX`)
`best_fit(1)` returns `NULL` although the block fits: `temp->size < len` is false for
`len = INT_MAX`. -/
theorem best_fit_misses_int_max_block :
    best_fit chain_int_max 1 = none ∧
    ∃ b ∈ chain_int_max.blocks, b.free = true ∧ 1 ≤ b.size := by
  decide

/-- On a chain the allocator itself never builds (free blocks of sizes `2^32` and `8`)
`worst_fit(1)` returns the second block, not the largest one: `len = temp->size` truncates
`2^32` to `0`. -/
theorem worst_fit_misses_wide_block :
    worst_fit chain_wide_block 1 = some 1 ∧
    chain_wide_block.blocks[1]?.map (fun c => c.size) = some 8 ∧
    ∃ b ∈ chain_wide_block.blocks, b.free = true ∧ 1 ≤ b.size ∧ 8 < b.size := by
  decide

/-- Instance of `worst_fit_largest_earliest` on the chain with one free block of size
`INT_MAX`. -/
theorem worst_fit_largest_earliest_witness :
    (worst_fit chain_int_max 1 = none ↔ ∀ b ∈ chain_int_max.blocks, b.free = true → b.size < 1) ∧
    (∀ i : Nat, worst_fit chain_int_max 1 = some i →
      ∃ b : mem_block, chain_int_max.blocks[i]? = some b ∧ b.free = true ∧ 1 ≤ b.size ∧
        ∀ (j : Nat) (c : mem_block), chain_int_max.blocks[j]? = some c → c.free = true →
          1 ≤ c.size → c.size ≤ b.size ∧ (c.size = b.size → i ≤ j)) :=
  worst_fit_largest_earliest chain_int_max 1 (by decide) (by decide)

/-! ## Scenarios evaluated on the code -/

/-- C1 fails as stated: from the empty state, with page size 4096 and the mapping granted at
the page aligned address 4096, `malloc(64)` returns 4196, which is not a multiple of 8 (the
header is 100 bytes long). -/
theorem first_payload_not_8_aligned :
    (8 : Int) ∣ env_first.pagesize ∧ env_first.pagesize ∣ ((4096 : Nat) : Int) ∧
    malloc env_first (some 4096) State.empty 64
      = Outcome.ret
          { blocks := [{ addr := 4096, name := some (List.replicate 32 0), size := 68,
                         free := false, region_id := 1 },
                       { addr := 4264, name := none, size := 3828, free := true, region_id := 1 }],
            g_tail := 4264, page_size := 3828, g_allocations := 1, g_regions := 1,
            mapped := [{ id := 1, base := 4096, len := 4096 }] } 4196 ∧
    ¬ (8 ∣ 4196) := by
  decide

/-- C3 on the code: X, Y, Z are three adjacent blocks of one region; after `free(X)` and
`free(Y)` the chain still holds X and Y as two free blocks of size 68, and no block starting at
X's start reaches Y's end (address 4432), whether its size counts the header or not. -/
theorem release_does_not_coalesce :
    ∃ st : State,
      run_calls env_first State.empty
        [Call.malloc 64 (some 4096), Call.malloc 64 (some 8192), Call.malloc 64 (some 8192),
          Call.free 4196, Call.free 4364] = some (st, [4196, 4364, 4532, 0, 0]) ∧
      st.blocks.map (fun b => (b.addr, b.size, b.free, b.region_id))
        = [(4096, 68, true, 1), (4264, 68, true, 1), (4432, 68, false, 1), (4600, 3492, true, 1)] ∧
      ∀ b ∈ st.blocks, b.addr = 4096 → ¬ (b.addr + b.size = 4432 ∨ b.addr + 100 + b.size = 4432) :=
  ⟨{ blocks := [{ addr := 4096, name := some (List.replicate 32 0), size := 68, free := true,
                  region_id := 1 },
                { addr := 4264, name := none, size := 68, free := true, region_id := 1 },
                { addr := 4432, name := none, size := 68, free := false, region_id := 1 },
                { addr := 4600, name := none, size := 3492, free := true, region_id := 1 }],
     g_tail := 4600, page_size := 3492, g_allocations := 3, g_regions := 1,
     mapped := [{ id := 1, base := 4096, len := 4096 }] }, by decide⟩

/-- C4 on the code: `malloc(3996)` fills the whole 4096-byte region (no split); after `free`
the block is still in the chain, and the next `malloc(3996)` returns the same pointer with
`g_regions` still 1: nothing was unmapped and no fresh region was mapped. -/
theorem whole_region_block_is_reused :
    run_calls env_first State.empty [Call.malloc 3996 (some 4096)]
      = some
          ({ blocks := [{ addr := 4096, name := some (List.replicate 32 0), size := 3996,
                          free := false, region_id := 1 }],
             g_tail := 4096, page_size := 3996, g_allocations := 1, g_regions := 1,
             mapped := [{ id := 1, base := 4096, len := 4096 }] }, [4196]) ∧
    run_calls env_first State.empty [Call.malloc 3996 (some 4096), Call.free 4196]
      = some
          ({ blocks := [{ addr := 4096, name := some (List.replicate 32 0), size := 3996,
                          free := true, region_id := 1 }],
             g_tail := 4096, page_size := 3996, g_allocations := 1, g_regions := 1,
             mapped := [{ id := 1, base := 4096, len := 4096 }] }, [4196, 0]) ∧
    run_calls env_first State.empty
        [Call.malloc 3996 (some 4096), Call.free 4196, Call.malloc 3996 (some 8192)]
      = some
          ({ blocks := [{ addr := 4096, name := some (List.replicate 32 0), size := 3996,
                          free := false, region_id := 1 }],
             g_tail := 4096, page_size := 3996, g_allocations := 2, g_regions := 1,
             mapped := [{ id := 1, base := 4096, len := 4096 }] }, [4196, 0, 4196]) := by
  decide

/-- C6 fails as stated: after A = `malloc(64)`, B = `malloc(64)`, `free(A)`, C = `malloc(32)`
under `first_fit`, C equals A, but A's block was not split: the chain has the same three blocks
as before and no free block starts inside A's former span `[4096, 4264)`. -/
theorem small_reuse_is_not_split :
    ∃ st : State,
      run_calls env_first State.empty
        [Call.malloc 64 (some 4096), Call.malloc 64 (some 8192), Call.free 4196,
          Call.malloc 32 (some 8192)] = some (st, [4196, 4364, 0, 4196]) ∧
      st.blocks.map (fun b => (b.addr, b.size, b.free))
        = [(4096, 68, false), (4264, 68, false), (4432, 3660, true)] ∧
      ∀ b ∈ st.blocks, b.free = true → ¬ (4096 ≤ b.addr ∧ b.addr < 4264) :=
  ⟨{ blocks := [{ addr := 4096, name := some (List.replicate 32 0), size := 68, free := false,
                  region_id := 1 },
                { addr := 4264, name := none, size := 68, free := false, region_id := 1 },
                { addr := 4432, name := none, size := 3660, free := true, region_id := 1 }],
     g_tail := 4432, page_size := 3660, g_allocations := 3, g_regions := 1,
     mapped := [{ id := 1, base := 4096, len := 4096 }] }, by decide⟩

/-- C9 fails as stated: with an unknown strategy name, `malloc(64)` on the empty state returns
the non-null pointer 4196 and maps region 1. -/
theorem unknown_strategy_still_allocates :
    malloc env_unknown (some 4096) State.empty 64
      = Outcome.ret
          { blocks := [{ addr := 4096, name := some (List.replicate 32 0), size := 68,
                         free := false, region_id := 1 },
                       { addr := 4264, name := none, size := 3828, free := true, region_id := 1 }],
            g_tail := 4264, page_size := 3828, g_allocations := 1, g_regions := 1,
            mapped := [{ id := 1, base := 4096, len := 4096 }] } 4196 ∧
    (4196 : Nat) ≠ 0 := by
  decide

/-- C10 fails as stated: on a chain with a free block of 68 bytes, with an unknown strategy
name, `reuse(8)` returns `NULL` while `first_fit(8)` returns the first block. -/
theorem unknown_strategy_is_not_first_fit :
    ∃ st : State,
      run_calls env_unknown State.empty [Call.malloc 64 (some 4096), Call.free 4196]
        = some (st, [4196, 0]) ∧
      reuse env_unknown st 8 = none ∧ first_fit st 8 = some 0 :=
  ⟨{ blocks := [{ addr := 4096, name := some (List.replicate 32 0), size := 68, free := true,
                  region_id := 1 },
                { addr := 4264, name := none, size := 3828, free := true, region_id := 1 }],
     g_tail := 4264, page_size := 3828, g_allocations := 1, g_regions := 1,
     mapped := [{ id := 1, base := 4096, len := 4096 }] }, by decide⟩

/-! ## Strategy selection and the page rounding loop -/

/-- An unknown strategy name makes `reuse` return `NULL`. -/
theorem reuse_unknown (env : Env) (s : State) (n : Nat) (a : String) (ha : env.algo = some a)
    (h1 : a ≠ "first_fit") (h2 : a ≠ "worst_fit") (h3 : a ≠ "best_fit") :
    reuse env s n = none := by
  unfold reuse
  simp only [ha]
  split
  · rfl
  · simp [h1, h2, h3]

/-- With the variable unset the search is `first_fit`. -/
theorem reuse_unset (env : Env) (s : State) (n : Nat) (hn : 0 < n) (ha : env.algo = none) :
    reuse env s n = first_fit s n := by
  unfold reuse
  simp only [ha]
  rw [if_neg (by omega)]
  simp

/-- C10, as the code has it: for `n > 0`, with the strategy variable unset `reuse(n)` returns
what `first_fit(n)` returns; with a name other than `first_fit`, `worst_fit`, `best_fit` it
returns `NULL`. -/
theorem reuse_default_and_unknown (env : Env) (s : State) (n : Nat) (hn : 0 < n) :
    (env.algo = none → reuse env s n = first_fit s n) ∧
    (∀ a : String, env.algo = some a → a ≠ "first_fit" → a ≠ "worst_fit" → a ≠ "best_fit" →
      reuse env s n = none) :=
  ⟨reuse_unset env s n hn, fun a ha h1 h2 h3 => reuse_unknown env s n a ha h1 h2 h3⟩

/-- The page rounding loop exits when the rounded size fits an `int`. -/
theorem page_loop_exits (y ps : Int) (hps : 0 < ps) (hy : y + ps ≤ 2147483648) :
    ∀ (fuel : Nat) (s : Int), 0 ≤ s → s < y + ps → y - s < fuel → 0 < fuel →
      ∃ r : Int, page_loop fuel s y ps = some r ∧ y ≤ r ∧ r < y + ps ∧ 0 ≤ r := by
  intro fuel
  induction fuel with
  | zero => intro s _ _ _ h; omega
  | succ k ih =>
    intro s h0 h1 h2 _
    rw [page_loop]
    by_cases hlt : s < y
    · rw [if_pos hlt]
      have hw : i32 (s + ps) = s + ps := by unfold i32; omega
      rw [hw]
      exact ih (s + ps) (by omega) (by omega) (by omega) (by omega)
    · rw [if_neg hlt]
      exact ⟨s, rfl, by omega, h1, h0⟩

/-! ## Shape of the results of `split_block` and `malloc` -/

/-- A node at position `i` cuts the chain into the nodes before it and after it. -/
theorem chain_cut : ∀ (l : List mem_block) (i : Nat) (b : mem_block), l[i]? = some b →
    ∃ pre post : List mem_block, l = pre ++ b :: post ∧ pre.length = i := by
  intro l
  induction l with
  | nil => intro i b h; simp at h
  | cons x xs ih =>
    intro i b h
    cases i with
    | zero =>
      simp at h
      exact ⟨[], xs, by simp [h], rfl⟩
    | succ i =>
      simp at h
      obtain ⟨pre, post, hl, hlen⟩ := ih i b h
      exact ⟨x :: pre, post, by simp [hl], by simp [hlen]⟩

/-- The node between `pre` and `post` sits at position `pre.length`. -/
theorem chain_get (pre post : List mem_block) (b : mem_block) :
    (pre ++ b :: post)[pre.length]? = some b := by
  rw [List.getElem?_append_right (le_refl _)]
  simp

/-- `split_block` on the node `b` that sits between `pre` and `post`. -/
theorem split_block_eq (s : State) (pre post : List mem_block) (b : mem_block) (sz : Nat)
    (h : s.blocks = pre ++ b :: post) :
    split_block s (some pre.length) sz =
      if i32 (u64 ((b.size : Int) - sz + 100)) < 108 then (s, none)
      else if post = [] then
        if i32 (u64 ((u64 s.page_size : Int) - sz + 100)) < 108 then
          ({ s with
              page_size :=
                i32 (u64 ((u64 (i32 (u64 ((u64 s.page_size : Int) - sz + 100))) : Int) + sz - 100)) },
            none)
        else
          ({ s with
              blocks := pre ++ [{ b with size := u64 ((sz : Int) - 100) },
                { addr := b.addr + sz, name := none,
                  size := u64 (i32 (i32 (u64 ((u64 s.page_size : Int) - sz + 100)) - 100)),
                  free := true, region_id := b.region_id }]
              g_tail := b.addr + sz
              page_size := i32 (i32 (u64 ((u64 s.page_size : Int) - sz + 100)) - 100) },
            some (pre.length + 1))
      else
        ({ s with
            blocks := pre ++ { b with size := u64 ((sz : Int) - 100) } ::
              { addr := b.addr + sz, name := none, size := u64 ((b.size : Int) - sz),
                free := true, region_id := b.region_id } :: post },
          some (pre.length + 1)) := by
  unfold split_block
  simp only [h, chain_get]
  by_cases hx : i32 (u64 ((b.size : Int) - sz + 100)) < 108
  · simp [hx]
  · by_cases hp : post = []
    · subst hp
      simp [hx]
    · have hlen : ¬ (pre.length + 1 = (pre ++ b :: post).length) := by
        have : 0 < post.length := List.length_pos.mpr hp
        simp only [List.length_append, List.length_cons]
        omega
      simp [hx, hp, hlen]

/-! ## The bookkeeping invariant -/

/-- The last node of a chain that ends in `b`. -/
theorem chain_last_nil (pre : List mem_block) (b : mem_block) :
    (pre ++ [b]).getLast? = some b := by
  simp

/-- The last node of a chain is the last node of a non-empty tail of it. -/
theorem chain_last_cons (pre post : List mem_block) (b : mem_block) (h : post ≠ []) :
    (pre ++ b :: post).getLast? = post.getLast? := by
  cases post with
  | nil => exact absurd rfl h
  | cons x xs =>
    rw [List.getLast?_append, List.getLast?_cons_cons]
    cases hl : (x :: xs).getLast? with
    | none => simp at hl
    | some c => rfl

/-- No block, no bytes. -/
theorem region_bytes_nil (r : Nat) : region_bytes [] r = 0 := rfl

/-- Bytes of a region, one block at a time. -/
theorem region_bytes_cons (b : mem_block) (l : List mem_block) (r : Nat) :
    region_bytes (b :: l) r = (if b.region_id = r then b.size + 100 else 0) + region_bytes l r := by
  unfold region_bytes
  by_cases h : b.region_id = r <;> simp [List.filter_cons, h]

/-- Bytes of a region over two pieces of the chain. -/
theorem region_bytes_append (l1 l2 : List mem_block) (r : Nat) :
    region_bytes (l1 ++ l2) r = region_bytes l1 r + region_bytes l2 r := by
  unfold region_bytes
  simp [List.filter_append]


/-- The last node of `l1 ++ l2` is the last node of `l2` when `l2` is not empty. -/
theorem getLast?_append_ne_nil (l1 l2 : List mem_block) (h : l2 ≠ []) :
    (l1 ++ l2).getLast? = l2.getLast? := by
  rw [List.getLast?_append]
  cases hl : l2.getLast? with
  | none => exact absurd (List.getLast?_eq_none_iff.mp hl) h
  | some c => rfl

/-- A piece of the chain without blocks of region `r` holds no bytes of it. -/
theorem region_bytes_zero (l : List mem_block) (r : Nat) (h : ∀ b ∈ l, b.region_id ≠ r) :
    region_bytes l r = 0 := by
  induction l with
  | nil => rfl
  | cons x xs ih =>
    rw [region_bytes_cons, if_neg (h x (List.mem_cons_self _ _)),
      ih (fun b hb => h b (List.mem_cons_of_mem _ hb))]

/-- Bytes of a piece of the chain whose blocks all belong to region `k`. -/
theorem region_bytes_uniform (l : List mem_block) (k r : Nat) (h : ∀ b ∈ l, b.region_id = k) :
    region_bytes l r = if k = r then (l.map (fun b => b.size + 100)).sum else 0 := by
  induction l with
  | nil => simp [region_bytes_nil]
  | cons x xs ih =>
    rw [region_bytes_cons, ih (fun b hb => h b (List.mem_cons_of_mem _ hb)),
      h x (List.mem_cons_self _ _)]
    by_cases hk : k = r <;> simp [hk]

/-- Recorded mappings carry ids between 1 and `g_regions`. -/
theorem WF.region_le {s : State} (hs : WF s) (r : region) (hr : r ∈ s.mapped) :
    1 ≤ r.id ∧ r.id ≤ s.g_regions := by
  have : r.id ∈ s.mapped.map (fun r => r.id) := List.mem_map_of_mem _ hr
  rw [hs.mapped_ids, List.mem_range'_1] at this
  omega

/-- Blocks carry region ids between 1 and `g_regions`. -/
theorem WF.block_region_le {s : State} (hs : WF s) (b : mem_block) (hb : b ∈ s.blocks) :
    1 ≤ b.region_id ∧ b.region_id ≤ s.g_regions := by
  obtain ⟨r, hr, hid⟩ := hs.ids b hb
  rw [← hid]
  exact hs.region_le r hr

/-- The empty state satisfies the invariant. -/
theorem wf_empty : WF State.empty where
  sizes := by intro b hb; simp [State.empty] at hb
  tail := by intro b hb; simp [State.empty] at hb
  ids := by intro b hb; simp [State.empty] at hb
  mapped_ids := by simp [State.empty]
  bytes := by intro r hr; simp [State.empty] at hr

/-- Replacing the node `b` by the nodes `mid`, which cover the same bytes of the same region,
keeps the invariant. -/
theorem WF.edit {s st : State} (hs : WF s) (pre post mid : List mem_block) (b : mem_block)
    (h : s.blocks = pre ++ b :: post) (hst : st.blocks = pre ++ mid ++ post)
    (hne : mid ≠ [])
    (hsz : ∀ c ∈ mid, c.size + 100 < 2147483648)
    (hrid : ∀ c ∈ mid, c.region_id = b.region_id)
    (hsum : (mid.map (fun c => c.size + 100)).sum = b.size + 100)
    (hreg : st.g_regions = s.g_regions) (hmap : st.mapped = s.mapped)
    (htail : post ≠ [] → st.page_size = s.page_size ∧ st.g_tail = s.g_tail)
    (htail' : post = [] → ∀ c : mem_block, mid.getLast? = some c →
      st.page_size = c.size ∧ st.g_tail = c.addr) : WF st where
  sizes := by
    intro c hc
    rw [hst] at hc
    simp only [List.mem_append] at hc
    rcases hc with (hc | hc) | hc
    · exact hs.sizes c (by rw [h]; simp [hc])
    · exact hsz c hc
    · exact hs.sizes c (by rw [h]; simp [hc])
  tail := by
    intro c hc
    rw [hst] at hc
    by_cases hp : post = []
    · subst hp
      rw [List.append_nil, getLast?_append_ne_nil _ _ hne] at hc
      exact htail' rfl c hc
    · rw [getLast?_append_ne_nil _ _ hp] at hc
      have hc' : s.blocks.getLast? = some c := by
        rw [h, chain_last_cons _ _ _ hp]
        exact hc
      have := hs.tail c hc'
      rw [(htail hp).1, (htail hp).2]
      exact this
  ids := by
    intro c hc
    rw [hmap]
    rw [hst] at hc
    simp only [List.mem_append] at hc
    rcases hc with (hc | hc) | hc
    · exact hs.ids c (by rw [h]; simp [hc])
    · rw [hrid c hc]
      exact hs.ids b (by rw [h]; simp)
    · exact hs.ids c (by rw [h]; simp [hc])
  mapped_ids := by rw [hmap, hreg]; exact hs.mapped_ids
  bytes := by
    intro r hr
    rw [hmap] at hr
    have := hs.bytes r hr
    rw [h, region_bytes_append, region_bytes_cons] at this
    rw [hst, region_bytes_append, region_bytes_append, region_bytes_uniform mid _ _ hrid, hsum]
    omega

/-- The block mapped by `map_region` is appended to the chain. -/
theorem map_region_blocks (s : State) (a m : Nat) :
    (map_region s a m).blocks = s.blocks ++
      [{ addr := a, name := some (List.replicate 32 0), size := u64 (i32 (i32 m - 100)),
         free := false, region_id := s.g_regions + 1 }] := by
  unfold map_region
  cases hb : s.blocks with
  | nil => simp
  | cons x xs => simp

/-- Mapping a region of `m` bytes, `100 <= m < 2^31`, keeps the invariant. -/
theorem WF.map_region {s : State} (hs : WF s) (a m : Nat) (h1 : 100 ≤ m) (h2 : m < 2147483648) :
    WF (map_region s a m) where
  sizes := by
    intro c hc
    rw [map_region_blocks] at hc
    simp only [List.mem_append, List.mem_singleton] at hc
    rcases hc with hc | hc
    · exact hs.sizes c hc
    · subst hc
      dsimp only
      unfold u64 i32
      omega
  tail := by
    intro c hc
    rw [map_region_blocks, chain_last_nil] at hc
    cases hc
    refine ⟨?_, rfl⟩
    dsimp only [Allocator.map_region]
    unfold u64 i32
    omega
  ids := by
    intro c hc
    rw [map_region_blocks] at hc
    simp only [List.mem_append, List.mem_singleton] at hc
    rcases hc with hc | hc
    · obtain ⟨r, hr, hid⟩ := hs.ids c hc
      exact ⟨r, by simp [Allocator.map_region, hr], hid⟩
    · subst hc
      exact ⟨{ id := s.g_regions + 1, base := a, len := m }, by simp [Allocator.map_region], rfl⟩
  mapped_ids := by
    dsimp only [Allocator.map_region]
    rw [List.map_append, hs.mapped_ids, List.range'_concat]
    simp [Nat.add_comm]
  bytes := by
    intro r hr
    rw [map_region_blocks, region_bytes_append, region_bytes_cons, region_bytes_nil]
    have hr' : r ∈ s.mapped ∨ r = { id := s.g_regions + 1, base := a, len := m } := by
      simpa [Allocator.map_region] using hr
    rcases hr' with hr' | hr'
    · have := hs.region_le r hr'
      have hb := hs.bytes r hr'
      rw [if_neg (by show s.g_regions + 1 ≠ r.id; omega)]
      omega
    · subst hr'
      have hz : region_bytes s.blocks (s.g_regions + 1) = 0 :=
        region_bytes_zero _ _ (fun b hb => by have := hs.block_region_le b hb; omega)
      dsimp only
      rw [hz, if_pos rfl]
      unfold u64 i32
      omega

/-- Rounding of a request that fits an `int`: the result is the least `size1 >= size` with
`size1 + 100` a multiple of 8. -/
theorem aligned_size_small (size : Nat) (h : size + 100 < 2147483648) :
    size ≤ aligned_size size ∧ aligned_size size < size + 8 ∧ (aligned_size size + 100) % 8 = 0 := by
  unfold aligned_size u64 i32
  dsimp only
  split <;> omega

/-- In every case the size handed to `split_block` is a multiple of 8. -/
theorem aligned_size_dvd (size : Nat) : 8 ∣ u64 ((aligned_size size : Int) + 100) := by
  unfold aligned_size u64 i32
  dsimp only
  split <;> omega

/-- What the page rounding loop returns: a multiple of 8 that is at least `y` and fits an
`int`, provided the page size is a multiple of 8. -/
theorem page_loop_sound (y ps r : Int) (hps : (8 : Int) ∣ ps) :
    ∀ (fuel : Nat) (s : Int), page_loop fuel s y ps = some r → (8 : Int) ∣ s →
      -2147483648 ≤ s → s < 2147483648 →
      y ≤ r ∧ (8 : Int) ∣ r ∧ -2147483648 ≤ r ∧ r < 2147483648 := by
  intro fuel
  induction fuel with
  | zero => intro s h; simp [page_loop] at h
  | succ k ih =>
    intro s h h8 hlo hhi
    rw [page_loop] at h
    by_cases hlt : s < y
    · rw [if_pos hlt] at h
      exact ih (i32 (s + ps)) h (by unfold i32; omega) (by unfold i32; omega) (by unfold i32; omega)
    · rw [if_neg hlt] at h
      cases h
      exact ⟨by omega, h8, hlo, hhi⟩

/-- `malloc_finish` on the node `b` between `pre` and `post`. -/
theorem malloc_finish_eq (s : State) (pre post : List mem_block) (b : mem_block) (size1 : Nat)
    (h : s.blocks = pre ++ b :: post) :
    malloc_finish s pre.length size1 =
      Outcome.ret
        (split_block
          { s with
              g_allocations := s.g_allocations + 1
              blocks := pre ++ { b with free := false } :: post }
          (some pre.length) (u64 ((size1 : Int) + 100))).1
        (b.addr + 100) := by
  unfold malloc_finish
  simp only [h, chain_get]
  simp

/-- Marking a node used and splitting it keeps the invariant, for a rounded size that fits an
`int` together with the header. -/
theorem WF.malloc_finish {s st : State} (hs : WF s) (i size1 p : Nat)
    (hsz : size1 + 100 < 2147483648)
    (h : Allocator.malloc_finish s i size1 = Outcome.ret st p) : WF st := by
  cases hb : s.blocks[i]? with
  | none => simp [Allocator.malloc_finish, hb] at h
  | some b =>
    obtain ⟨pre, post, hl, hlen⟩ := chain_cut s.blocks i b hb
    subst hlen
    rw [malloc_finish_eq s pre post b size1 hl] at h
    have hbs : b.size + 100 < 2147483648 := hs.sizes b (by rw [hl]; simp)
    have hs1 : WF { s with
        g_allocations := s.g_allocations + 1
        blocks := pre ++ { b with free := false } :: post } := by
      refine hs.edit pre post [{ b with free := false }] b hl (by simp) (by simp) ?_ ?_ ?_ rfl rfl
        (fun _ => ⟨rfl, rfl⟩) ?_
      · intro c hc
        simp only [List.mem_singleton] at hc
        subst hc
        exact hbs
      · intro c hc
        simp only [List.mem_singleton] at hc
        subst hc
        rfl
      · simp
      · intro hp c hc
        simp only [List.getLast?_singleton, Option.some.injEq] at hc
        subst hc
        subst hp
        exact hs.tail b (by rw [hl, chain_last_nil])
    rw [split_block_eq _ pre post { b with free := false } _ rfl] at h
    dsimp only at h
    obtain ⟨sz, hszdef⟩ : ∃ sz : Nat, sz = size1 + 100 := ⟨_, rfl⟩
    have hsz' : u64 ((size1 : Int) + 100) = sz := by
      rw [hszdef]
      unfold u64
      omega
    rw [hsz', split_x_exact b.size sz hbs (by omega)] at h
    have e1 : u64 ((sz : Int) - 100) = sz - 100 := u64_sub sz 100 (by omega) (by omega)
    rw [e1] at h
    split_ifs at h with hx hp hps
    · cases h
      exact hs1
    · exfalso
      subst hp
      have := (hs.tail b (by rw [hl, chain_last_nil])).1
      rw [this, u64_nat _ (by omega), split_x_exact b.size sz hbs (by omega)] at hps
      omega
    · subst hp
      have hps' := (hs.tail b (by rw [hl, chain_last_nil])).1
      rw [hps', u64_nat _ (by omega), split_x_exact b.size sz hbs (by omega)] at h
      have e2 : i32 ((b.size : Int) - sz + 100 - 100) = (b.size : Int) - sz := by
        rw [i32_id _ (by omega) (by omega)]
        omega
      rw [e2, u64_sub b.size sz (by omega) (by omega)] at h
      cases h
      refine hs1.edit pre [] _ { b with free := false } rfl (List.append_nil _).symm (by simp)
        ?_ ?_ ?_ rfl rfl (fun hne => absurd rfl hne) ?_
      · intro c hc
        simp only [List.mem_cons, List.mem_singleton, List.not_mem_nil, or_false] at hc
        rcases hc with hc | hc <;> subst hc <;> dsimp only <;> omega
      · intro c hc
        simp only [List.mem_cons, List.mem_singleton, List.not_mem_nil, or_false] at hc
        rcases hc with hc | hc <;> subst hc <;> rfl
      · simp only [List.map_cons, List.map_nil, List.sum_cons, List.sum_nil]
        omega
      · intro _ c hc
        simp only [List.getLast?_cons_cons, List.getLast?_singleton, Option.some.injEq] at hc
        subst hc
        dsimp only
        refine ⟨?_, rfl⟩
        omega
    · rw [u64_sub b.size sz (by omega) (by omega)] at h
      cases h
      refine hs1.edit pre post [_, _] { b with free := false } rfl
        (List.append_assoc pre [_, _] post).symm (by simp) ?_ ?_ ?_ rfl
        rfl (fun _ => ⟨rfl, rfl⟩) (fun hp' => absurd hp' hp)
      · intro c hc
        simp only [List.mem_cons, List.mem_singleton, List.not_mem_nil, or_false] at hc
        rcases hc with hc | hc <;> subst hc <;> dsimp only <;> omega
      · intro c hc
        simp only [List.mem_cons, List.mem_singleton, List.not_mem_nil, or_false] at hc
        rcases hc with hc | hc <;> subst hc <;> rfl
      · simp only [List.map_cons, List.map_nil, List.sum_cons, List.sum_nil]
        omega

/-- Instance of C10 for a request of 8 bytes on the empty chain with the unknown name
`next_fit`. -/
theorem reuse_default_and_unknown_witness :
    0 < 8 ∧
    ((env_unknown.algo = none → reuse env_unknown State.empty 8 = first_fit State.empty 8) ∧
     (∀ a : String, env_unknown.algo = some a → a ≠ "first_fit" → a ≠ "worst_fit" →
        a ≠ "best_fit" → reuse env_unknown State.empty 8 = none)) :=
  ⟨by decide, reuse_default_and_unknown env_unknown State.empty 8 (by decide)⟩

/-- Rewriting fields other than address, size and region of the nodes does not change the
bytes of a region. -/
theorem region_bytes_map (f : mem_block → mem_block) (hsize : ∀ b, (f b).size = b.size)
    (hrid : ∀ b, (f b).region_id = b.region_id) (l : List mem_block) (r : Nat) :
    region_bytes (l.map f) r = region_bytes l r := by
  induction l with
  | nil => rfl
  | cons x xs ih => rw [List.map_cons, region_bytes_cons, region_bytes_cons, ih, hsize, hrid]

/-- Rewriting fields other than address, size and region of the nodes keeps the invariant. -/
theorem WF.map_nodes {s st : State} (hs : WF s) (f : mem_block → mem_block)
    (haddr : ∀ b, (f b).addr = b.addr) (hsize : ∀ b, (f b).size = b.size)
    (hrid : ∀ b, (f b).region_id = b.region_id)
    (hb : st.blocks = s.blocks.map f) (htail : st.g_tail = s.g_tail)
    (hps : st.page_size = s.page_size) (hreg : st.g_regions = s.g_regions)
    (hmap : st.mapped = s.mapped) : WF st where
  sizes := by
    intro c hc
    rw [hb, List.mem_map] at hc
    obtain ⟨b, hbm, rfl⟩ := hc
    rw [hsize]
    exact hs.sizes b hbm
  tail := by
    intro c hc
    rw [hb, List.getLast?_map] at hc
    cases hl : s.blocks.getLast? with
    | none => rw [hl] at hc; cases hc
    | some b =>
      rw [hl] at hc
      cases hc
      rw [hps, htail, hsize, haddr]
      exact hs.tail b hl
  ids := by
    intro c hc
    rw [hb, List.mem_map] at hc
    obtain ⟨b, hbm, rfl⟩ := hc
    rw [hrid, hmap]
    exact hs.ids b hbm
  mapped_ids := by rw [hmap, hreg]; exact hs.mapped_ids
  bytes := by
    intro r hr
    rw [hmap] at hr
    rw [hb, region_bytes_map f hsize hrid]
    exact hs.bytes r hr

/-- `free` keeps the invariant. -/
theorem WF.free {s : State} (hs : WF s) (ptr : Nat) : WF (Allocator.free s ptr) := by
  unfold Allocator.free
  split
  · exact hs
  · dsimp only
    split
    · refine hs.map_nodes (fun b => if b.addr = ptr - 100 then { b with free := true } else b)
        ?_ ?_ ?_ rfl rfl rfl rfl rfl <;> intro b <;> dsimp only <;> split <;> rfl
    · exact hs

/-- `malloc` keeps the invariant, for a request that fits an `int` together with the header and
a page size that is a multiple of 8. -/
theorem WF.malloc {s st : State} (hs : WF s) (env : Env) (os : Option Nat) (size p : Nat)
    (h8 : (8 : Int) ∣ env.pagesize) (hsz : size + 100 < 2147483648)
    (h : Allocator.malloc env os s size = Outcome.ret st p) : WF st := by
  have hy : i32 (u64 ((size : Int) + 100)) = (size : Int) + 100 := by
    rw [i32_u64, i32_id _ (by omega) (by omega)]
  obtain ⟨ha1, ha2, ha3⟩ := aligned_size_small size hsz
  unfold Allocator.malloc at h
  rw [hy] at h
  cases hloop : page_loop page_fuel 0 ((size : Int) + 100) env.pagesize with
  | none =>
    rw [hloop, malloc_sized] at h
    exact Outcome.noConfusion h
  | some r =>
    rw [hloop, malloc_sized] at h
    have h80 : (8 : Int) ∣ 0 := Int.dvd_zero 8
    obtain ⟨hr1, hr2, hr3, hr4⟩ :=
      page_loop_sound _ _ r h8 page_fuel 0 hloop h80 (by omega) (by omega)
    have hr5 : (aligned_size size : Int) + 100 ≤ r := by omega
    have hu : (u64 r : Int) = r := u64_id r (by omega) (by omega)
    cases hre : reuse env s (aligned_size size) with
    | some i =>
      rw [hre, malloc_place] at h
      exact hs.malloc_finish i _ p (by omega) h
    | none =>
      rw [hre] at h
      cases os with
      | none =>
        rw [malloc_place] at h
        exact Outcome.noConfusion h
      | some a =>
        rw [malloc_place] at h
        exact (hs.map_region a (u64 r) (by omega) (by omega)).malloc_finish _ _ p (by omega) h

/-! ## Reachable states satisfy the invariant -/

/-- Every call that returns keeps the invariant, when its request fits an `int` together with
the header and the page size is a multiple of 8. -/
theorem WF.run {s st : State} (hs : WF s) (env : Env) (c : Call) (p : Nat)
    (h8 : (8 : Int) ∣ env.pagesize) (hc : c.small)
    (h : c.run env s = Outcome.ret st p) : WF st := by
  cases c with
  | malloc size os =>
    exact hs.malloc env os size p h8 (hc size rfl) h
  | malloc_name size name os =>
    simp only [Call.run, Allocator.malloc_name] at h
    cases hm : Allocator.malloc env os s size with
    | ret s1 ptr =>
      have hs1 : WF s1 := hs.malloc env os size ptr h8 (hc size rfl) hm
      rw [hm, malloc_name_set] at h
      split_ifs at h with hp
      · injection h with h1 h2
        subst h1
        refine hs1.map_nodes
          (fun b => if b.addr = ptr - 100 then { b with name := some (strncpy32 name) } else b)
          ?_ ?_ ?_ rfl rfl rfl rfl rfl <;> intro b <;> dsimp only <;> split <;> rfl
      · cases h
        exact hs1
    | hang => rw [hm, malloc_name_set] at h; exact Outcome.noConfusion h
    | null_write => rw [hm, malloc_name_set] at h; exact Outcome.noConfusion h
    | wild => rw [hm, malloc_name_set] at h; exact Outcome.noConfusion h
  | calloc nmemb size os =>
    simp only [Call.run, Allocator.calloc] at h
    cases hm : Allocator.malloc env os s (u64 ((nmemb : Int) * size)) with
    | ret s1 ptr =>
      have hs1 : WF s1 := hs.malloc env os _ ptr h8 (hc _ rfl) hm
      rw [hm, calloc_fill] at h
      split_ifs at h with hp
      cases h
      exact hs1
    | hang => rw [hm, calloc_fill] at h; exact Outcome.noConfusion h
    | null_write => rw [hm, calloc_fill] at h; exact Outcome.noConfusion h
    | wild => rw [hm, calloc_fill] at h; exact Outcome.noConfusion h
  | realloc ptr size os =>
    simp only [Call.run, Allocator.realloc] at h
    split_ifs at h with h0 h1
    · exact hs.malloc env os size p h8 (hc size rfl) h
    · cases h
      exact hs.free ptr
    · cases hf : s.blocks.find? (fun b => b.addr = ptr - 100) with
      | none => rw [hf] at h; exact Outcome.noConfusion h
      | some block =>
        rw [hf] at h
        dsimp only at h
        split_ifs at h with h2
        · cases h
          exact hs
        · cases hm : Allocator.malloc env os s size with
          | ret s1 temp =>
            have hs1 : WF s1 := hs.malloc env os size temp h8 (hc size rfl) hm
            rw [hm, realloc_move] at h
            split_ifs at h with hp
            · injection h with h1 h2
              subst h1
              refine hs1.map_nodes
                (fun b => if b.addr = ptr - 100 then { b with free := true } else b)
                ?_ ?_ ?_ rfl rfl rfl rfl rfl <;> intro b <;> dsimp only <;> split <;> rfl
            · cases h
              exact hs1
          | hang => rw [hm, realloc_move] at h; exact Outcome.noConfusion h
          | null_write => rw [hm, realloc_move] at h; exact Outcome.noConfusion h
          | wild => rw [hm, realloc_move] at h; exact Outcome.noConfusion h
  | free ptr =>
    simp only [Call.run] at h
    cases h
    exact hs.free ptr

/-- Every state reachable by calls whose requests fit an `int` satisfies the invariant. -/
theorem Reach.wf {ps : Int} (h8 : (8 : Int) ∣ ps) {s : State} (h : Reach ps Call.small s) :
    WF s := by
  induction h with
  | init => exact wf_empty
  | step env c s s1 p _ hps hc hrun ih =>
    exact ih.run env c p (by rw [hps]; exact h8) hc hrun

/-! ## Alignment of the headers -/

/-- Replacing one node by aligned nodes keeps all headers aligned. -/
theorem Aligned.edit_nodes {s st : State} (hs : Aligned s) (pre post mid : List mem_block)
    (b : mem_block) (h : s.blocks = pre ++ b :: post) (hst : st.blocks = pre ++ mid ++ post)
    (hmid : ∀ c ∈ mid, c.addr ≠ 0 ∧ 8 ∣ c.addr) : Aligned st := by
  intro c hc
  rw [hst] at hc
  simp only [List.mem_append] at hc
  rcases hc with (hc | hc) | hc
  · exact hs c (by rw [h]; simp [hc])
  · exact hmid c hc
  · exact hs c (by rw [h]; simp [hc])

/-- Marking a node used and splitting it at a multiple of 8 keeps all headers aligned; the
pointer returned is the payload address of that node. -/
theorem Aligned.after_finish {s st : State} (hs : Aligned s) (i size1 p : Nat)
    (h8 : 8 ∣ u64 ((size1 : Int) + 100))
    (h : Allocator.malloc_finish s i size1 = Outcome.ret st p) :
    Aligned st ∧ ∃ b ∈ s.blocks, p = b.addr + 100 := by
  cases hb : s.blocks[i]? with
  | none => simp [Allocator.malloc_finish, hb] at h
  | some b =>
    obtain ⟨pre, post, hl, hlen⟩ := chain_cut s.blocks i b hb
    subst hlen
    have hbm : b ∈ s.blocks := by rw [hl]; simp
    have hba := hs b hbm
    rw [malloc_finish_eq s pre post b size1 hl] at h
    rw [split_block_eq _ pre post { b with free := false } _ rfl] at h
    dsimp only at h
    obtain ⟨sz, hszdef⟩ : ∃ sz : Nat, sz = u64 ((size1 : Int) + 100) := ⟨_, rfl⟩
    rw [← hszdef] at h h8
    have hused : ∀ c ∈ [({ b with free := false } : mem_block)], c.addr ≠ 0 ∧ 8 ∣ c.addr := by
      intro c hc
      simp only [List.mem_singleton] at hc
      subst hc
      exact hba
    have hsplit : ∀ (n m : Nat), ∀ c ∈ [({ b with free := false, size := n } : mem_block),
        { addr := b.addr + sz, name := none, size := m, free := true,
          region_id := b.region_id }], c.addr ≠ 0 ∧ 8 ∣ c.addr := by
      intro n m c hc
      simp only [List.mem_cons, List.mem_singleton, List.not_mem_nil, or_false] at hc
      rcases hc with hc | hc
      · subst hc
        exact hba
      · subst hc
        dsimp only
        obtain ⟨h1, h2⟩ := hba
        constructor
        · omega
        · omega
    split_ifs at h with hx hp hps
    · injection h with h1 h2
      subst h1
      exact ⟨hs.edit_nodes pre post [_] b hl (by simp) hused, b, hbm, h2.symm⟩
    · injection h with h1 h2
      subst h1
      exact ⟨hs.edit_nodes pre post [_] b hl (by simp) hused, b, hbm, h2.symm⟩
    · injection h with h1 h2
      subst h1
      subst hp
      exact ⟨hs.edit_nodes pre [] [_, _] b hl (List.append_nil _).symm (hsplit _ _), b, hbm, h2.symm⟩
    · injection h with h1 h2
      subst h1
      exact ⟨hs.edit_nodes pre post [_, _] b hl (List.append_assoc pre [_, _] post).symm (hsplit _ _),
        b, hbm, h2.symm⟩

/-- Mapping a region at a non-null multiple of 8 keeps all headers aligned. -/
theorem Aligned.after_map {s : State} (hs : Aligned s) (a m : Nat) (h0 : a ≠ 0) (h8 : 8 ∣ a) :
    Aligned (Allocator.map_region s a m) := by
  intro c hc
  rw [map_region_blocks] at hc
  simp only [List.mem_append, List.mem_singleton] at hc
  rcases hc with hc | hc
  · exact hs c hc
  · subst hc
    exact ⟨h0, h8⟩

/-- `malloc` keeps all headers aligned, and a pointer it returns is 100 bytes past a header:
a multiple of 8 plus 4. -/
theorem Aligned.after_malloc {s st : State} (hs : Aligned s) (env : Env) (os : Option Nat)
    (size p : Nat) (hos : ∀ a : Nat, os = some a → a ≠ 0 ∧ 8 ∣ a)
    (h : Allocator.malloc env os s size = Outcome.ret st p) :
    Aligned st ∧ (p ≠ 0 → 8 ∣ (p - 100) ∧ p % 8 = 4) := by
  have h8 := aligned_size_dvd size
  unfold Allocator.malloc at h
  cases hloop : page_loop page_fuel 0 (i32 (u64 ((size : Int) + 100))) env.pagesize with
  | none =>
    rw [hloop, malloc_sized] at h
    exact Outcome.noConfusion h
  | some r =>
    rw [hloop, malloc_sized] at h
    cases hre : reuse env s (aligned_size size) with
    | some i =>
      rw [hre, malloc_place] at h
      obtain ⟨ha, b, hb, hp⟩ := hs.after_finish i _ p h8 h
      refine ⟨ha, fun _ => ?_⟩
      obtain ⟨-, h2⟩ := hs b hb
      omega
    | none =>
      rw [hre] at h
      cases os with
      | none =>
        rw [malloc_place] at h
        exact Outcome.noConfusion h
      | some a =>
        rw [malloc_place] at h
        obtain ⟨ha0, ha8⟩ := hos a rfl
        obtain ⟨hal, b, hb, hp⟩ := (hs.after_map a (u64 r) ha0 ha8).after_finish _ _ p h8 h
        refine ⟨hal, fun _ => ?_⟩
        obtain ⟨-, h2⟩ := (hs.after_map a (u64 r) ha0 ha8) b hb
        omega

/-- Rewriting fields other than the address keeps all headers aligned. -/
theorem Aligned.relabel {s st : State} (hs : Aligned s) (f : mem_block → mem_block)
    (haddr : ∀ b, (f b).addr = b.addr) (hb : st.blocks = s.blocks.map f) : Aligned st := by
  intro c hc
  rw [hb, List.mem_map] at hc
  obtain ⟨b, hbm, rfl⟩ := hc
  rw [haddr]
  exact hs b hbm

/-- `free` keeps all headers aligned. -/
theorem Aligned.after_free {s : State} (hs : Aligned s) (ptr : Nat) : Aligned (Allocator.free s ptr) := by
  unfold Allocator.free
  split
  · exact hs
  · dsimp only
    split
    · refine hs.relabel (fun b => if b.addr = ptr - 100 then { b with free := true } else b)
        ?_ rfl
      intro b
      dsimp only
      split <;> rfl
    · exact hs

/-- A page aligned answer of `mmap` is a non-null multiple of 8 when the page size is. -/
theorem page_aligned_os {ps : Int} (h8 : (8 : Int) ∣ ps) {c : Call} (hc : c.page_aligned ps)
    (a : Nat) (ha : c.os = some a) : a ≠ 0 ∧ 8 ∣ a := by
  obtain ⟨h0, h1⟩ := hc a ha
  have : (8 : Int) ∣ (a : Int) := dvd_trans h8 h1
  exact ⟨h0, by omega⟩

/-- Every call that returns keeps all headers aligned, when the mappings granted are page
aligned and the page size is a multiple of 8. -/
theorem Aligned.after_run {s st : State} (hs : Aligned s) (env : Env) (c : Call) (p : Nat)
    (h8 : (8 : Int) ∣ env.pagesize) (hc : c.page_aligned env.pagesize)
    (h : c.run env s = Outcome.ret st p) : Aligned st := by
  cases c with
  | malloc size os =>
    exact (hs.after_malloc env os size p (fun a ha => page_aligned_os h8 hc a ha) h).1
  | malloc_name size name os =>
    simp only [Call.run, Allocator.malloc_name] at h
    cases hm : Allocator.malloc env os s size with
    | ret s1 ptr =>
      have hs1 : Aligned s1 :=
        (hs.after_malloc env os size ptr (fun a ha => page_aligned_os h8 hc a ha) hm).1
      rw [hm, malloc_name_set] at h
      split_ifs at h with hp
      · injection h with h1 h2
        subst h1
        refine hs1.relabel
          (fun b => if b.addr = ptr - 100 then { b with name := some (strncpy32 name) } else b)
          ?_ rfl
        intro b
        dsimp only
        split <;> rfl
      · cases h
        exact hs1
    | hang => rw [hm, malloc_name_set] at h; exact Outcome.noConfusion h
    | null_write => rw [hm, malloc_name_set] at h; exact Outcome.noConfusion h
    | wild => rw [hm, malloc_name_set] at h; exact Outcome.noConfusion h
  | calloc nmemb size os =>
    simp only [Call.run, Allocator.calloc] at h
    cases hm : Allocator.malloc env os s (u64 ((nmemb : Int) * size)) with
    | ret s1 ptr =>
      have hs1 : Aligned s1 :=
        (hs.after_malloc env os _ ptr (fun a ha => page_aligned_os h8 hc a ha) hm).1
      rw [hm, calloc_fill] at h
      split_ifs at h with hp
      cases h
      exact hs1
    | hang => rw [hm, calloc_fill] at h; exact Outcome.noConfusion h
    | null_write => rw [hm, calloc_fill] at h; exact Outcome.noConfusion h
    | wild => rw [hm, calloc_fill] at h; exact Outcome.noConfusion h
  | realloc ptr size os =>
    simp only [Call.run, Allocator.realloc] at h
    split_ifs at h with h0 h1
    · exact (hs.after_malloc env os size p (fun a ha => page_aligned_os h8 hc a ha) h).1
    · cases h
      exact hs.after_free ptr
    · cases hf : s.blocks.find? (fun b => b.addr = ptr - 100) with
      | none => rw [hf] at h; exact Outcome.noConfusion h
      | some block =>
        rw [hf] at h
        dsimp only at h
        split_ifs at h with h2
        · cases h
          exact hs
        · cases hm : Allocator.malloc env os s size with
          | ret s1 temp =>
            have hs1 : Aligned s1 :=
              (hs.after_malloc env os size temp (fun a ha => page_aligned_os h8 hc a ha) hm).1
            rw [hm, realloc_move] at h
            split_ifs at h with hp
            · injection h with h1 h2
              subst h1
              refine hs1.relabel
                (fun b => if b.addr = ptr - 100 then { b with free := true } else b) ?_ rfl
              intro b
              dsimp only
              split <;> rfl
            · cases h
              exact hs1
          | hang => rw [hm, realloc_move] at h; exact Outcome.noConfusion h
          | null_write => rw [hm, realloc_move] at h; exact Outcome.noConfusion h
          | wild => rw [hm, realloc_move] at h; exact Outcome.noConfusion h
  | free ptr =>
    simp only [Call.run] at h
    cases h
    exact hs.after_free ptr

/-- Every state reachable with page aligned mappings has all its headers aligned. -/
theorem Reach.aligned {ps : Int} (h8 : (8 : Int) ∣ ps) {s : State}
    (h : Reach ps (Call.page_aligned ps) s) : Aligned s := by
  induction h with
  | init => intro b hb; simp [State.empty] at hb
  | step env c s s1 p _ hps hc hrun ih =>
    subst hps
    exact ih.after_run env c p h8 hc hrun

/-- C1, as the code has it: in every state reachable from the empty state with mappings granted
at non-null multiples of the page size (itself a multiple of 8), a pointer returned by
`malloc(size)` is 100 bytes past a header that lies at a multiple of 8, so the pointer itself is
a multiple of 8 plus 4. -/
theorem payload_is_4_mod_8 (ps : Int) (h8 : (8 : Int) ∣ ps) (s : State)
    (hs : Reach ps (Call.page_aligned ps) s) (env : Env) (os : Option Nat) (size : Nat)
    (hos : ∀ a : Nat, os = some a → a ≠ 0 ∧ ps ∣ (a : Int)) (st : State) (p : Nat)
    (h : malloc env os s size = Outcome.ret st p) (hp : p ≠ 0) :
    8 ∣ (p - 100) ∧ p % 8 = 4 := by
  have hos8 : ∀ a : Nat, os = some a → a ≠ 0 ∧ 8 ∣ a := by
    intro a ha
    obtain ⟨h0, h1⟩ := hos a ha
    have : (8 : Int) ∣ (a : Int) := dvd_trans h8 h1
    exact ⟨h0, by omega⟩
  exact ((Reach.aligned h8 hs).after_malloc env os size p hos8 h).2 hp

/-- Instance of C1: `malloc(64)` on the empty state with the mapping granted at 4096. -/
theorem payload_is_4_mod_8_witness : 8 ∣ (4196 - 100) ∧ 4196 % 8 = 4 :=
  payload_is_4_mod_8 4096 (by decide) State.empty Reach.init env_first (some 4096) 64
    (by intro a ha; cases ha; exact ⟨by decide, by decide⟩) st_one_alloc 4196 (by decide)
    (by decide)

/-- C2, as the code has it: in every state reachable by calls whose requests fit an `int`
together with the header (page size a multiple of 8), for every recorded mapping the blocks
that carry its region id take up exactly the mapped bytes when each block is counted as its
100-byte header plus its `size` field; every block belongs to a recorded mapping. -/
theorem region_bytes_eq_mapped (ps : Int) (h8 : (8 : Int) ∣ ps) (s : State)
    (hs : Reach ps Call.small s) :
    (∀ r ∈ s.mapped, region_bytes s.blocks r.id = r.len) ∧
    (∀ b ∈ s.blocks, ∃ r ∈ s.mapped, r.id = b.region_id) :=
  ⟨(Reach.wf h8 hs).bytes, (Reach.wf h8 hs).ids⟩

/-- The state after one `malloc(64)` is reachable by small requests. -/
theorem reach_one_alloc : Reach 4096 Call.small st_one_alloc :=
  Reach.step env_first (Call.malloc 64 (some 4096)) State.empty st_one_alloc 4196 Reach.init rfl
    (by intro n hn; cases hn; decide) (by decide)

/-- Instance of C2 on the state after one `malloc(64)`. -/
theorem region_bytes_eq_mapped_witness :
    (∀ r ∈ st_one_alloc.mapped, region_bytes st_one_alloc.blocks r.id = r.len) ∧
    (∀ b ∈ st_one_alloc.blocks, ∃ r ∈ st_one_alloc.mapped, r.id = b.region_id) :=
  region_bytes_eq_mapped 4096 (by decide) st_one_alloc reach_one_alloc

/-- C2 fails as stated: after `malloc(64)` on the empty state the mapped region has 4096 bytes,
while the `size` fields of its two blocks add up to 68 + 3828 = 3896; the block of a fresh
region has size 3996, not 4096. -/
theorem size_fields_exclude_headers :
    run_calls env_first State.empty [Call.malloc 64 (some 4096)] = some (st_one_alloc, [4196]) ∧
    st_one_alloc.mapped = [{ id := 1, base := 4096, len := 4096 }] ∧
    region_sizes st_one_alloc.blocks 1 = 3896 ∧
    (map_region State.empty 4096 4096).blocks.map (fun b => b.size) = [3996] := by
  decide

/-! ## What `malloc_finish`, `malloc` and `free` return -/

/-- Changing the chain, the tail pointer and `page_size` leaves the counters and the recorded
mappings as they are. -/
theorem state_counters (s : State) (B : List mem_block) (T : Nat) (P : Int) :
    ({ s with blocks := B, g_tail := T, page_size := P } : State).g_regions = s.g_regions ∧
    ({ s with blocks := B, g_tail := T, page_size := P } : State).mapped = s.mapped ∧
    ({ s with blocks := B, g_tail := T, page_size := P } : State).g_allocations
      = s.g_allocations :=
  ⟨rfl, rfl, rfl⟩

/-- `split_block` leaves the counters and the recorded mappings as they are. -/
theorem split_block_counters (s : State) (pre post : List mem_block) (b : mem_block) (sz : Nat)
    (h : s.blocks = pre ++ b :: post) :
    (split_block s (some pre.length) sz).1.g_regions = s.g_regions ∧
    (split_block s (some pre.length) sz).1.mapped = s.mapped ∧
    (split_block s (some pre.length) sz).1.g_allocations = s.g_allocations := by
  rw [split_block_eq s pre post b sz h]
  by_cases hx : i32 (u64 ((b.size : Int) - sz + 100)) < 108
  · rewrite [if_pos hx]
    exact ⟨rfl, rfl, rfl⟩
  · rewrite [if_neg hx]
    by_cases hp : post = []
    · rewrite [if_pos hp]
      by_cases hq : i32 (u64 ((u64 s.page_size : Int) - sz + 100)) < 108
      · rewrite [if_pos hq]
        exact state_counters s _ _ _
      · rewrite [if_neg hq]
        exact state_counters s _ _ _
    · rewrite [if_neg hp]
      exact state_counters s _ _ _
/-- `malloc_finish` on a node of the chain returns the payload address of that node, counts one
allocation, and maps nothing. -/
theorem malloc_finish_ret (s : State) (i size1 : Nat) (b : mem_block) (hb : s.blocks[i]? = some b) :
    ∃ st : State, malloc_finish s i size1 = Outcome.ret st (b.addr + 100) ∧
      st.g_regions = s.g_regions ∧ st.mapped = s.mapped ∧
      st.g_allocations = s.g_allocations + 1 := by
  obtain ⟨pre, post, hl, hlen⟩ := chain_cut s.blocks i b hb
  subst hlen
  refine ⟨_, malloc_finish_eq s pre post b size1 hl, ?_⟩
  obtain ⟨h1, h2, h3⟩ := split_block_counters
    { s with g_allocations := s.g_allocations + 1
             blocks := pre ++ { b with free := false } :: post }
    pre post { b with free := false } (u64 ((size1 : Int) + 100)) rfl
  exact ⟨h1, h2, h3⟩

/-- `free` of the payload pointer of a header at a non-null address marks that header free. -/
theorem free_eq (s : State) (a : Nat) (ha : a ≠ 0) :
    free s (a + 100) = { s with blocks := set_free s.blocks a } := by
  unfold free
  rw [if_neg (by omega)]
  dsimp only
  rw [Nat.add_sub_cancel, if_pos ha]

/-- What `free` leaves of two neighbours, `merge_block` not being called: in every reachable state (mappings granted at non-null page aligned
addresses), for two blocks X and Y where Y immediately follows X in the chain, after
`free(X's pointer)` and `free(Y's pointer)` the chain has the same length and still holds X and Y
at their positions as two separate blocks, each marked free with start, size, name and region id
unchanged; every block keeps its start, size and region id, and blocks at other addresses are
not changed at all; no region is mapped or unmapped. -/
theorem release_keeps_both_blocks (ps : Int) (h8 : (8 : Int) ∣ ps) (s : State)
    (hs : Reach ps (Call.page_aligned ps) s) (i : Nat) (X Y : mem_block)
    (hX : s.blocks[i]? = some X) (hY : s.blocks[i + 1]? = some Y) :
    (free (free s (X.addr + 100)) (Y.addr + 100)).blocks.length = s.blocks.length ∧
    (free (free s (X.addr + 100)) (Y.addr + 100)).blocks[i]? = some { X with free := true } ∧
    (free (free s (X.addr + 100)) (Y.addr + 100)).blocks[i + 1]? = some { Y with free := true } ∧
    (∀ (j : Nat) (b : mem_block), s.blocks[j]? = some b →
      ∃ c : mem_block, (free (free s (X.addr + 100)) (Y.addr + 100)).blocks[j]? = some c ∧
        c.addr = b.addr ∧ c.size = b.size ∧ c.region_id = b.region_id ∧
        (b.addr ≠ X.addr → b.addr ≠ Y.addr → c = b)) ∧
    (free (free s (X.addr + 100)) (Y.addr + 100)).mapped = s.mapped ∧
    (free (free s (X.addr + 100)) (Y.addr + 100)).g_regions = s.g_regions := by
  have hal := Reach.aligned h8 hs
  have hX0 : X.addr ≠ 0 := (hal X (List.mem_iff_getElem?.mpr ⟨i, hX⟩)).1
  have hY0 : Y.addr ≠ 0 := (hal Y (List.mem_iff_getElem?.mpr ⟨i + 1, hY⟩)).1
  rw [free_eq s X.addr hX0, free_eq _ Y.addr hY0]
  dsimp only [set_free]
  refine ⟨by simp, ?_, ?_, ?_, rfl, rfl⟩
  · rw [List.getElem?_map, List.getElem?_map, hX]
    dsimp only [Option.map]
    rw [if_pos rfl]
    dsimp only
    split <;> rfl
  · rw [List.getElem?_map, List.getElem?_map, hY]
    dsimp only [Option.map]
    split
    · dsimp only
      rw [if_pos rfl]
    · rw [if_pos rfl]
  · intro j b hb
    rw [List.getElem?_map, List.getElem?_map, hb]
    dsimp only [Option.map]
    refine ⟨_, rfl, ?_⟩
    by_cases h1 : b.addr = X.addr
    · rw [if_pos h1]
      dsimp only
      by_cases h2 : b.addr = Y.addr
      · rw [if_pos h2]
        exact ⟨rfl, rfl, rfl, fun h => absurd h1 h⟩
      · rw [if_neg h2]
        exact ⟨rfl, rfl, rfl, fun h => absurd h1 h⟩
    · rw [if_neg h1]
      by_cases h2 : b.addr = Y.addr
      · rw [if_pos h2]
        exact ⟨rfl, rfl, rfl, fun _ h => absurd h2 h⟩
      · rw [if_neg h2]
        exact ⟨rfl, rfl, rfl, fun _ _ => rfl⟩

/-- The state after one `malloc(64)` is reachable with page aligned mappings. -/
theorem reach_one_alloc_aligned : Reach 4096 (Call.page_aligned 4096) st_one_alloc :=
  Reach.step env_first (Call.malloc 64 (some 4096)) State.empty st_one_alloc 4196 Reach.init rfl
    (by intro a ha; cases ha; exact ⟨by decide, by decide⟩) (by decide)

/-- Instance of `release_keeps_both_blocks` on the two blocks of the state after one
`malloc(64)`. -/
theorem release_keeps_both_blocks_witness :
    (free (free st_one_alloc (4096 + 100)) (4264 + 100)).blocks.length
      = st_one_alloc.blocks.length :=
  (release_keeps_both_blocks 4096 (by decide) st_one_alloc reach_one_alloc_aligned 0
    { addr := 4096, name := some (List.replicate 32 0), size := 68, free := false,
      region_id := 1 }
    { addr := 4264, name := none, size := 3828, free := true, region_id := 1 } rfl rfl).1

/-- The block appended by `map_region` sits at the old length of the chain. -/
theorem map_region_get (s : State) (a m : Nat) :
    (map_region s a m).blocks[s.blocks.length]? =
      some { addr := a, name := some (List.replicate 32 0), size := u64 (i32 (i32 m - 100)),
             free := false, region_id := s.g_regions + 1 } := by
  rw [map_region_blocks]
  exact chain_get s.blocks [] _

/-- C9, as the code has it: with a strategy name other than `first_fit`, `worst_fit`, `best_fit`
the search finds nothing for any size, so `malloc(size)` (for `size + 100 + page size <= 2^31`)
never reuses a block and always asks the OS for a region; when the OS grants the mapping at `a`
the call returns the non-null pointer `a + 100`, raises `g_regions` by one and records the new
region. -/
theorem unknown_strategy_maps_region (env : Env) (s : State) (size a : Nat) (name : String)
    (ha : env.algo = some name) (h1 : name ≠ "first_fit") (h2 : name ≠ "worst_fit")
    (h3 : name ≠ "best_fit") (hps : 0 < env.pagesize)
    (hsz : (size : Int) + 100 + env.pagesize ≤ 2147483648) :
    (∀ n : Nat, reuse env s n = none) ∧
    ∃ (st : State) (len : Nat), malloc env (some a) s size = Outcome.ret st (a + 100) ∧
      st.g_regions = s.g_regions + 1 ∧
      st.mapped = s.mapped ++ [{ id := s.g_regions + 1, base := a, len := len }] := by
  have hy : i32 (u64 ((size : Int) + 100)) = (size : Int) + 100 := by
    rw [i32_u64, i32_id _ (by omega) (by omega)]
  obtain ⟨r, hloop, -, -, -⟩ := page_loop_exits ((size : Int) + 100) env.pagesize hps hsz
    page_fuel 0 (le_refl 0) (by omega) (by unfold page_fuel; omega) (by unfold page_fuel; omega)
  have hre := fun n => reuse_unknown env s n name ha h1 h2 h3
  refine ⟨hre, ?_⟩
  obtain ⟨st, hst, hreg, hmap, -⟩ :=
    malloc_finish_ret (map_region s a (u64 r)) s.blocks.length (aligned_size size) _
      (map_region_get s a (u64 r))
  refine ⟨st, u64 r, ?_, hreg, hmap⟩
  unfold malloc
  rw [hy, hloop, malloc_sized, hre, malloc_place]
  exact hst

/-- Instance of C9 with the unknown name `next_fit`, page size 4096, on the state after one
`malloc(64)`, whose second block is free and large enough: `malloc(64)` still maps a region,
here at address 8192. -/
theorem unknown_strategy_maps_region_witness :
    ∃ (st : State) (len : Nat),
      malloc env_unknown (some 8192) st_one_alloc 64 = Outcome.ret st (8192 + 100) ∧
      st.g_regions = st_one_alloc.g_regions + 1 ∧
      st.mapped =
        st_one_alloc.mapped ++ [{ id := st_one_alloc.g_regions + 1, base := 8192, len := len }] :=
  (unknown_strategy_maps_region env_unknown st_one_alloc 64 8192 "next_fit" rfl (by decide)
    (by decide) (by decide) (by decide) (by decide)).2

/-! ## `malloc_finish` case by case -/

/-- `malloc_finish` when `split_block` declines at its first test (`x < y`): the node is marked
used and nothing else changes. -/
theorem malloc_finish_whole (s : State) (pre post : List mem_block) (b : mem_block) (size1 : Nat)
    (i : Nat) (h : s.blocks = pre ++ b :: post) (hi : pre.length = i)
    (hx : i32 (u64 ((b.size : Int) - u64 ((size1 : Int) + 100) + 100)) < 108) :
    malloc_finish s i size1 =
      Outcome.ret
        { s with
            g_allocations := s.g_allocations + 1
            blocks := pre ++ { b with free := false } :: post } (b.addr + 100) := by
  subst hi
  rw [malloc_finish_eq s pre post b size1 h,
    split_block_eq _ pre post { b with free := false } _ rfl]
  dsimp only
  rewrite [if_pos hx]
  rfl

/-- `malloc_finish` when the node is the last of the chain and both tests of `split_block`
pass: the node keeps `size - 100` bytes and a free node is written behind it, which becomes
the tail; `page_size` becomes the size of the new node. -/
theorem malloc_finish_split_tail (s : State) (pre : List mem_block) (b : mem_block)
    (size1 z : Nat) (q : Int) (i : Nat) (h : s.blocks = pre ++ [b]) (hi : pre.length = i)
    (hz : u64 ((size1 : Int) + 100) = z)
    (hx : ¬ i32 (u64 ((b.size : Int) - z + 100)) < 108)
    (hq : i32 (u64 ((u64 s.page_size : Int) - z + 100)) = q) (hq108 : ¬ q < 108) :
    malloc_finish s i size1 =
      Outcome.ret
        { s with
            g_allocations := s.g_allocations + 1
            blocks := pre ++ [{ b with free := false, size := u64 ((z : Int) - 100) },
              { addr := b.addr + z, name := none, size := u64 (i32 (q - 100)), free := true,
                region_id := b.region_id }]
            g_tail := b.addr + z
            page_size := i32 (q - 100) } (b.addr + 100) := by
  subst hi
  rw [malloc_finish_eq s pre [] b size1 h,
    split_block_eq _ pre [] { b with free := false } _ rfl]
  dsimp only
  rewrite [hz, if_neg hx, if_pos rfl, hq, if_neg hq108]
  rfl

/-- `malloc_finish` when the node is not the last of the chain and the test of `split_block`
passes: the node keeps `size - 100` bytes and a free node with the rest is linked behind it. -/
theorem malloc_finish_split_mid (s : State) (pre post : List mem_block) (b : mem_block)
    (size1 z : Nat) (i : Nat) (h : s.blocks = pre ++ b :: post) (hi : pre.length = i)
    (hp : post ≠ []) (hz : u64 ((size1 : Int) + 100) = z)
    (hx : ¬ i32 (u64 ((b.size : Int) - z + 100)) < 108) :
    malloc_finish s i size1 =
      Outcome.ret
        { s with
            g_allocations := s.g_allocations + 1
            blocks := pre ++ { b with free := false, size := u64 ((z : Int) - 100) } ::
              { addr := b.addr + z, name := none, size := u64 ((b.size : Int) - z), free := true,
                region_id := b.region_id } :: post } (b.addr + 100) := by
  subst hi
  rw [malloc_finish_eq s pre post b size1 h,
    split_block_eq _ pre post { b with free := false } _ rfl]
  dsimp only
  rewrite [hz, if_neg hx, if_neg hp]
  rfl

/-! ## The first-fit scenario with a mapping at any address -/

/-- A = `malloc(64)` on the empty state: a region of 4096 bytes is mapped at `a` and split. -/
theorem scenario_malloc_A (env : Env) (henv : env = env_first ∨ env = env_worst ∨ env = env_best)
    (a : Nat) :
    malloc env (some a) State.empty 64 = Outcome.ret (scenario_A a) (a + 100) := by
  have e1 : i32 (u64 (((64 : Nat) : Int) + 100)) = 164 := by decide
  have e2 : page_loop page_fuel 0 164 env.pagesize = some 4096 := by
    rcases henv with h | h | h <;> subst h <;> decide
  have e3 : aligned_size 64 = 68 := by decide
  have e4 : reuse env State.empty 68 = none := by
    rcases henv with h | h | h <;> subst h <;> decide
  have e5 : u64 4096 = 4096 := by decide
  have f1 : i32 (i32 ((4096 : Nat) : Int) - 100) = 3996 := by decide
  have f2 : u64 3996 = 3996 := by decide
  have n168 : u64 (((68 : Nat) : Int) + 100) = 168 := by decide
  have n68 : u64 (((168 : Nat) : Int) - 100) = 68 := by decide
  have g1 : i32 (3928 - 100) = 3828 := by decide
  have g2 : u64 3828 = 3828 := by decide
  have hm : (map_region State.empty a 4096).blocks =
      [] ++ [({ addr := a, name := some (List.replicate 32 0), size := 3996, free := false,
                region_id := 1 } : mem_block)] := by
    rw [map_region_blocks, f1, f2]
    rfl
  have hps : (map_region State.empty a 4096).page_size = 3996 := f1
  unfold malloc
  rw [e1, e2, e3, malloc_sized, e4, malloc_place, e5,
    malloc_finish_split_tail _ [] _ 68 168 3928 State.empty.blocks.length hm rfl n168
      (by show ¬ i32 (u64 (((3996 : Nat) : Int) - ((168 : Nat) : Int) + 100)) < 108; decide)
      (by rw [hps]; decide) (by decide), n68, g1, g2]
  rfl

/-- B = `malloc(64)` under `first_fit`: the free tail block is reused and split. -/
theorem scenario_malloc_B (a : Nat) (os : Option Nat) :
    malloc env_first os (scenario_A a) 64 = Outcome.ret (scenario_AB a false 2) (a + 168 + 100) := by
  have e1 : i32 (u64 (((64 : Nat) : Int) + 100)) = 164 := by decide
  have e2 : page_loop page_fuel 0 164 env_first.pagesize = some 4096 := by decide
  have e3 : aligned_size 64 = 68 := by decide
  have n168 : u64 (((68 : Nat) : Int) + 100) = 168 := by decide
  have n68 : u64 (((168 : Nat) : Int) - 100) = 68 := by decide
  have g1 : i32 (3760 - 100) = 3660 := by decide
  have g2 : u64 3660 = 3660 := by decide
  have r : reuse env_first (scenario_A a) 68 = some 1 := rfl
  unfold malloc
  rw [e1, e2, e3, malloc_sized, r, malloc_place,
    malloc_finish_split_tail (scenario_A a)
      [{ addr := a, name := some (List.replicate 32 0), size := 68, free := false,
         region_id := 1 }]
      { addr := a + 168, name := none, size := 3828, free := true, region_id := 1 }
      68 168 3760 1 rfl rfl n168
      (by show ¬ i32 (u64 (((3828 : Nat) : Int) - ((168 : Nat) : Int) + 100)) < 108; decide)
      (by show i32 (u64 (((u64 (3828 : Int) : Nat) : Int) - ((168 : Nat) : Int) + 100)) = 3760
          decide)
      (by decide), n68, g1, g2]
  rfl

/-- `free(A)` marks A's block free. -/
theorem scenario_free_A (a : Nat) (ha : a ≠ 0) (n : Nat) :
    free (scenario_AB a false n) (a + 100) = scenario_AB a true n := by
  rw [free_eq _ a ha]
  simp [set_free, scenario_AB]

/-- C = `malloc(32)` under `first_fit`: A's block is found first and is too small to split. -/
theorem scenario_malloc_C (a : Nat) (os : Option Nat) :
    malloc env_first os (scenario_AB a true 2) 32 =
      Outcome.ret (scenario_AB a false 3) (a + 100) := by
  have c1 : i32 (u64 (((32 : Nat) : Int) + 100)) = 132 := by decide
  have c2 : page_loop page_fuel 0 132 env_first.pagesize = some 4096 := by decide
  have c3 : aligned_size 32 = 36 := by decide
  have r : reuse env_first (scenario_AB a true 2) 36 = some 0 := rfl
  unfold malloc
  rw [c1, c2, c3, malloc_sized, r, malloc_place,
    malloc_finish_whole (scenario_AB a true 2) []
      [{ addr := a + 168, name := none, size := 68, free := false, region_id := 1 },
       { addr := a + 168 + 168, name := none, size := 3660, free := true, region_id := 1 }]
      { addr := a, name := some (List.replicate 32 0), size := 68, free := true, region_id := 1 }
      36 0 rfl rfl
      (by show i32 (u64 (((68 : Nat) : Int) - ((u64 (((36 : Nat) : Int) + 100) : Nat) : Int)
            + 100)) < 108
          decide)]
  rfl

/-- One step of `run_calls` when the call returns. -/
theorem run_calls_cons_ret (env : Env) (s s1 : State) (c : Call) (cs : List Call) (p : Nat)
    (h : c.run env s = Outcome.ret s1 p) :
    run_calls env s (c :: cs) = (run_calls env s1 cs).map (fun r => (r.1, p :: r.2)) := by
  rw [run_calls, h]

/-- C6, as the code has it: from the empty state under `first_fit` with page size 4096 and the
first mapping granted at any non-null address `a`: after A = `malloc(64)`, B = `malloc(64)`,
`free(A)`, C = `malloc(32)`, the pointer C equals A (`a + 100`); A's block is reused whole, it is
not split (of its 68 bytes 36 are needed, the 32 left are fewer than the 108 a split requires),
so the chain still has the same three blocks and no free block starts inside A's former span
`[a, a + 168)`; B's block (start `a + 168`, size 68) is unchanged and in use. -/
theorem first_fit_reuses_whole_block (a : Nat) (ha : a ≠ 0) (os2 os3 : Option Nat) :
    run_calls env_first State.empty
        [Call.malloc 64 (some a), Call.malloc 64 os2, Call.free (a + 100), Call.malloc 32 os3]
      = some (scenario_AB a false 3, [a + 100, a + 168 + 100, 0, a + 100]) ∧
    (scenario_AB a false 3).blocks.map (fun b => (b.addr, b.size, b.free))
      = [(a, 68, false), (a + 168, 68, false), (a + 168 + 168, 3660, true)] ∧
    ∀ b ∈ (scenario_AB a false 3).blocks, b.free = true → ¬ (a ≤ b.addr ∧ b.addr < a + 168) := by
  refine ⟨?_, rfl, ?_⟩
  · rw [run_calls_cons_ret env_first State.empty (scenario_A a) (Call.malloc 64 (some a)) _ (a + 100)
        (scenario_malloc_A env_first (Or.inl rfl) a),
      run_calls_cons_ret env_first (scenario_A a) (scenario_AB a false 2) (Call.malloc 64 os2) _
        (a + 168 + 100)
        (scenario_malloc_B a os2),
      run_calls_cons_ret env_first (scenario_AB a false 2) (scenario_AB a true 2)
        (Call.free (a + 100)) _ 0
        (congrArg (fun st => Outcome.ret st 0) (scenario_free_A a ha 2)),
      run_calls_cons_ret env_first (scenario_AB a true 2) (scenario_AB a false 3)
        (Call.malloc 32 os3) _ (a + 100)
        (scenario_malloc_C a os3)]
    rfl
  · intro b hb hf
    simp only [scenario_AB, List.mem_cons, List.mem_singleton, List.not_mem_nil, or_false] at hb
    rcases hb with hb | hb | hb <;> subst hb
    · cases hf
    · cases hf
    · dsimp only
      omega

/-- Instance of C6 with the mapping granted at address 4096. -/
theorem first_fit_reuses_whole_block_witness :
    run_calls env_first State.empty
        [Call.malloc 64 (some 4096), Call.malloc 64 none, Call.free (4096 + 100),
          Call.malloc 32 none]
      = some (scenario_AB 4096 false 3, [4096 + 100, 4096 + 168 + 100, 0, 4096 + 100]) :=
  (first_fit_reuses_whole_block 4096 (by decide) none none).1

/-! ## `calloc`, `malloc_name` and large requests evaluated on the code -/

/-- The product of `calloc` as a `size_t` is the exact product reduced modulo `2^64`. -/
theorem u64_mul (nmemb size : Nat) :
    u64 ((nmemb : Int) * size) = (nmemb * size) % 18446744073709551616 := by
  unfold u64
  have h : ((nmemb : Int) * size) = ((nmemb * size : Nat) : Int) := by push_cast; rfl
  rw [h]
  omega

/-- What `calloc` does with the product: `calloc(nmemb, size)` takes it in `size_t`, so it
returns exactly what `calloc((nmemb * size) mod 2^64, 1)` returns; an overflowing product is
wrapped, not rejected. -/
theorem calloc_wraps_product (env : Env) (os : Option Nat) (s : State) (nmemb size : Nat) :
    calloc env os s nmemb size
      = calloc env os s ((nmemb * size) % 18446744073709551616) 1 := by
  have h1 := u64_mul nmemb size
  have h2 := u64_mul ((nmemb * size) % 18446744073709551616) 1
  rw [Nat.mul_one, Nat.mod_mod] at h2
  unfold calloc
  rw [h1, h2]

/-- C11 on the code: `2305843009213693960 * 8 = 2^64 + 64` does not fit the size type, yet
`calloc` returns the non-null pointer 4196 of a block of 68 bytes in a newly mapped region, as
`calloc(64, 1)` does. -/
theorem calloc_overflow_allocates :
    18446744073709551616 ≤ 2305843009213693960 * 8 ∧
    calloc env_first (some 4096) State.empty 2305843009213693960 8
      = Outcome.ret st_one_alloc 4196 ∧
    calloc env_first (some 4096) State.empty 64 1 = Outcome.ret st_one_alloc 4196 ∧
    st_one_alloc.g_regions = 1 := by
  decide

/-- C12 on the code: when no block can be reused and the OS denies the mapping, `malloc(64)`,
`calloc(1, 64)` and `realloc(p, 5000)` (with `p` the in-use block of 68 bytes) do not return at
all: `perror` is entered with `alloc_mutex` held.  And `calloc` hands whatever `malloc` returns
to `memset` without a test, so a `NULL` from `malloc` would be written through. -/
theorem denied_mapping_never_returns :
    reuse env_first State.empty (aligned_size 64) = none ∧
    malloc env_first none State.empty 64 = Outcome.hang ∧
    calloc env_first none State.empty 1 64 = Outcome.hang ∧
    reuse env_first st_one_alloc (aligned_size 5000) = none ∧
    realloc env_first none st_one_alloc 4196 5000 = Outcome.hang ∧
    calloc_fill 64 (Outcome.ret State.empty 0) = Outcome.null_write := by
  decide

/-- C13 on the code: `malloc(2^32 + 3900)` on the empty state maps one page (the size is
truncated to the `int` 4000) and returns the pointer 4196 of a block with 3996 payload bytes,
which ends with the 4096-byte region. -/
theorem huge_request_gets_small_block :
    malloc env_first (some 4096) State.empty 4294971196
      = Outcome.ret
          { blocks := [{ addr := 4096, name := some (List.replicate 32 0), size := 3996,
                         free := false, region_id := 1 }],
            g_tail := 4096, page_size := 3996, g_allocations := 1, g_regions := 1,
            mapped := [{ id := 1, base := 4096, len := 4096 }] } 4196 ∧
    (4196 : Nat) ≠ 0 ∧ 4196 + 3996 = 4096 + 4096 ∧ 3996 < 4294971196 := by
  decide

/-- C15 on the code: after `malloc(64)` on the empty state the returned block's name bytes are
the 32 zero bytes of the fresh mapping (the empty text), not `"Allocation 0"` nor
`"Allocation 1"`; the allocation counter went from 0 to 1. -/
theorem malloc_writes_no_name :
    malloc env_first (some 4096) State.empty 64 = Outcome.ret st_one_alloc 4196 ∧
    st_one_alloc.blocks.map (fun b => (b.addr, b.name))
      = [(4096, some (List.replicate 32 0)), (4264, none)] ∧
    List.replicate 32 0 ≠ strncpy32 [65, 108, 108, 111, 99, 97, 116, 105, 111, 110, 32, 48] ∧
    List.replicate 32 0 ≠ strncpy32 [65, 108, 108, 111, 99, 97, 116, 105, 111, 110, 32, 49] ∧
    State.empty.g_allocations = 0 ∧ st_one_alloc.g_allocations = 1 := by
  decide

/-- C16 on the code: `malloc_name(64, name)` with a name of 32 characters `'A'` leaves 32 bytes
`'A'` in the name field: no terminator byte, and 32 visible characters. -/
theorem long_name_has_no_terminator :
    malloc_name env_first (some 4096) State.empty 64 (List.replicate 32 65)
      = Outcome.ret
          { blocks := [{ addr := 4096, name := some (List.replicate 32 65), size := 68,
                         free := false, region_id := 1 },
                       { addr := 4264, name := none, size := 3828, free := true, region_id := 1 }],
            g_tail := 4264, page_size := 3828, g_allocations := 1, g_regions := 1,
            mapped := [{ id := 1, base := 4096, len := 4096 }] } 4196 ∧
    (0 : Nat) ∉ List.replicate 32 65 ∧ (List.replicate 32 65).length = 32 := by
  decide

/-! ## The searches on the chains the allocator builds -/

/-- The boolean test implies `Call.small`. -/
theorem Call.small_of_check (c : Call) (h : c.small_check = true) : c.small := by
  intro n hn
  unfold Call.small_check at h
  rw [hn] at h
  exact of_decide_eq_true h

/-- A sequence of calls with small requests that all return leads from a reachable state to a
reachable state. -/
theorem reach_of_run_calls (env : Env) (cs : List Call) :
    ∀ (s st : State) (ptrs : List Nat), Reach env.pagesize Call.small s →
      cs.all Call.small_check = true → run_calls env s cs = some (st, ptrs) →
      Reach env.pagesize Call.small st := by
  induction cs with
  | nil =>
    intro s st ptrs hs _ h
    rw [run_calls] at h
    injection h with h
    injection h with h1 h2
    rw [← h1]
    exact hs
  | cons c cs ih =>
    intro s st ptrs hs hc h
    rw [List.all_cons, Bool.and_eq_true] at hc
    cases hrun : c.run env s with
    | ret s1 p =>
      rw [run_calls_cons_ret env s s1 c cs p hrun] at h
      cases hr : run_calls env s1 cs with
      | none => rw [hr] at h; cases h
      | some r =>
        obtain ⟨st1, ptrs1⟩ := r
        rw [hr] at h
        injection h with h
        injection h with h1 h2
        rw [← h1]
        exact ih s1 st1 ptrs1
          (Reach.step env c s s1 p hs rfl (Call.small_of_check c hc.1) hrun) hc.2 hr
    | hang => rw [run_calls, hrun] at h; cases h
    | null_write => rw [run_calls, hrun] at h; cases h
    | wild => rw [run_calls, hrun] at h; cases h

/-- The eight calls of `calls_five_free` all return and end in `st_five_free`. -/
theorem run_five_free :
    run_calls env_first State.empty calls_five_free
      = some (st_five_free, [4196, 4364, 8292, 12388, 0, 0, 0, 0]) := by
  decide

/-- The state `st_five_free` is reachable by small requests. -/
theorem reach_five_free : Reach 4096 Call.small st_five_free :=
  reach_of_run_calls env_first calls_five_free State.empty st_five_free _ Reach.init (by decide)
    run_five_free

/-- What the two searches return on `st_five_free` (free blocks of sizes 68, 68, 3660, 3996,
3996): `best_fit` takes the first of the two blocks of 68 bytes, `worst_fit` the first of the two
blocks of 3996 bytes, and both return `NULL` when no block is large enough. -/
theorem fits_on_five_free :
    best_fit st_five_free 8 = some 0 ∧ best_fit st_five_free 100 = some 2 ∧
    best_fit st_five_free 3700 = some 3 ∧ best_fit st_five_free 4000 = none ∧
    worst_fit st_five_free 8 = some 3 ∧ worst_fit st_five_free 4000 = none := by
  decide

/-- C7: in every state reachable from the empty state by calls whose requests fit an `int`
together with the header (page size a multiple of 8), `best_fit(n)` returns `NULL` exactly when
no free block has `size >= n`; otherwise the block it returns is free, has `size >= n`, has the
smallest size among the free blocks with `size >= n`, and is the earliest block of that size in
list order. -/
theorem best_fit_on_reachable (ps : Int) (h8 : (8 : Int) ∣ ps) (s : State)
    (hs : Reach ps Call.small s) (n : Nat) :
    (best_fit s n = none ↔ ∀ b ∈ s.blocks, b.free = true → b.size < n) ∧
    (∀ i : Nat, best_fit s n = some i →
      ∃ b : mem_block, s.blocks[i]? = some b ∧ b.free = true ∧ n ≤ b.size ∧
        ∀ (j : Nat) (c : mem_block), s.blocks[j]? = some c → c.free = true → n ≤ c.size →
          b.size ≤ c.size ∧ (c.size = b.size → i ≤ j)) := by
  have hwf := Reach.wf h8 hs
  obtain ⟨h1, h2⟩ := best_fit_smallest_earliest s n
  refine ⟨⟨fun h b hb hf => ?_, fun h => h1.mpr (fun b hb hf hle => ?_)⟩, h2⟩
  · have := h1.mp h b hb hf
    have := hwf.sizes b hb
    omega
  · have := h b hb hf
    omega

/-- Instance of C7 on `st_five_free` with `n = 8`: five free blocks fit, the smallest size 68
occurs twice. -/
theorem best_fit_on_reachable_witness :
    (best_fit st_five_free 8 = none ↔ ∀ b ∈ st_five_free.blocks, b.free = true → b.size < 8) ∧
    (∀ i : Nat, best_fit st_five_free 8 = some i →
      ∃ b : mem_block, st_five_free.blocks[i]? = some b ∧ b.free = true ∧ 8 ≤ b.size ∧
        ∀ (j : Nat) (c : mem_block), st_five_free.blocks[j]? = some c → c.free = true →
          8 ≤ c.size → b.size ≤ c.size ∧ (c.size = b.size → i ≤ j)) :=
  best_fit_on_reachable 4096 (by decide) st_five_free reach_five_free 8

/-- C8: in every state reachable from the empty state by calls whose requests fit an `int`
together with the header (page size a multiple of 8), and for `n > 0`, `worst_fit(n)` returns
`NULL` exactly when no free block has `size >= n`; otherwise the block it returns is free, has
`size >= n`, has the largest size among the free blocks with `size >= n`, and is the earliest
block of that size in list order. -/
theorem worst_fit_on_reachable (ps : Int) (h8 : (8 : Int) ∣ ps) (s : State)
    (hs : Reach ps Call.small s) (n : Nat) (hn : 0 < n) :
    (worst_fit s n = none ↔ ∀ b ∈ s.blocks, b.free = true → b.size < n) ∧
    (∀ i : Nat, worst_fit s n = some i →
      ∃ b : mem_block, s.blocks[i]? = some b ∧ b.free = true ∧ n ≤ b.size ∧
        ∀ (j : Nat) (c : mem_block), s.blocks[j]? = some c → c.free = true → n ≤ c.size →
          c.size ≤ b.size ∧ (c.size = b.size → i ≤ j)) :=
  worst_fit_largest_earliest s n hn (fun b hb _ => by
    have := (Reach.wf h8 hs).sizes b hb
    omega)

/-- Instance of C8 on `st_five_free` with `n = 8`: five free blocks fit, the largest size 3996
occurs twice. -/
theorem worst_fit_on_reachable_witness :
    (worst_fit st_five_free 8 = none ↔ ∀ b ∈ st_five_free.blocks, b.free = true → b.size < 8) ∧
    (∀ i : Nat, worst_fit st_five_free 8 = some i →
      ∃ b : mem_block, st_five_free.blocks[i]? = some b ∧ b.free = true ∧ 8 ≤ b.size ∧
        ∀ (j : Nat) (c : mem_block), st_five_free.blocks[j]? = some c → c.free = true →
          8 ≤ c.size → c.size ≤ b.size ∧ (c.size = b.size → i ≤ j)) :=
  worst_fit_on_reachable 4096 (by decide) st_five_free reach_five_free 8 (by decide)

/-! ## `merge_block` -/

/-- The node behind the one between `pre` and `post` is the first node of `post`. -/
theorem chain_get_succ (pre post : List mem_block) (b : mem_block) :
    (pre ++ b :: post)[pre.length + 1]? = post[0]? := by
  rw [List.getElem?_append_right (by omega)]
  simp

/-- First step of `merge_block` when the right neighbour is free and of the same region. -/
theorem merge_block_right_absorb (pre post : List mem_block) (b r : mem_block)
    (hf : r.free = true) (hr : r.region_id = b.region_id) :
    merge_block_right (pre ++ b :: r :: post) pre.length
      = pre ++ { b with size := u64 ((b.size : Int) + r.size + 100) } :: post := by
  unfold merge_block_right
  rw [chain_get, chain_get_succ]
  simp [hf, hr]

/-- First step of `merge_block` when there is no right neighbour, or it is in use, or it belongs
to another region: nothing changes. -/
theorem merge_block_right_keep (pre post : List mem_block) (b : mem_block)
    (h : ∀ r : mem_block, post.head? = some r → ¬ (r.free = true ∧ r.region_id = b.region_id)) :
    merge_block_right (pre ++ b :: post) pre.length = pre ++ b :: post := by
  unfold merge_block_right
  rw [chain_get, chain_get_succ]
  cases post with
  | nil => simp
  | cons r post =>
    have := h r rfl
    simp [this]

/-- Second step of `merge_block` when the left neighbour is free and of the same region. -/
theorem merge_block_left_absorb (pre post : List mem_block) (l b : mem_block)
    (hf : l.free = true) (hr : l.region_id = b.region_id) :
    merge_block_left (pre ++ l :: b :: post) (pre.length + 1)
      = (pre ++ { l with size := u64 ((l.size : Int) + b.size + 100) } :: post, pre.length) := by
  rw [merge_block_left, chain_get, chain_get_succ]
  simp [hf, hr]

/-- Second step of `merge_block` when there is no left neighbour, or it is in use, or it belongs
to another region: nothing changes and the node itself is returned. -/
theorem merge_block_left_keep (pre post : List mem_block) (b : mem_block)
    (h : ∀ l : mem_block, pre.getLast? = some l → ¬ (l.free = true ∧ l.region_id = b.region_id)) :
    merge_block_left (pre ++ b :: post) pre.length = (pre ++ b :: post, pre.length) := by
  rcases List.eq_nil_or_concat pre with hp | ⟨pre', l, hp⟩
  · subst hp
    rfl
  · rw [List.concat_eq_append] at hp
    subst hp
    have hl := h l (by simp)
    have e : (pre' ++ [l]).length = pre'.length + 1 := by simp
    have e2 : (pre' ++ [l]) ++ b :: post = pre' ++ l :: b :: post := by simp
    rw [e, e2, merge_block_left, chain_get, chain_get_succ]
    simp [hl]


/-- The sum of two sizes and a header, taken in `size_t`, is exact when it fits. -/
theorem u64_add_header (a b : Nat) (h : a + b + 100 < 18446744073709551616) :
    u64 ((a : Int) + b + 100) = a + b + 100 := by
  have e : ((a : Int) + b + 100) = ((a + b + 100 : Nat) : Int) := by push_cast; rfl
  rw [e, u64_nat _ h]

/-- `merge_block` on the node `b` between `pre` and `post`, in terms of the two steps. -/
theorem merge_block_eq (s : State) (pre post : List mem_block) (b : mem_block)
    (h : s.blocks = pre ++ b :: post) :
    merge_block s (some pre.length) =
      ({ s with blocks :=
          (merge_block_left (merge_block_right (pre ++ b :: post) pre.length) pre.length).1 },
        some (merge_block_left (merge_block_right (pre ++ b :: post) pre.length) pre.length).2) := by
  unfold merge_block
  simp only [h, chain_get]

/-- C18: on a chain whose sizes fit an `int` together with the header, `merge_block(b)` for the
node `b` between `pre` and `post` absorbs the right neighbour exactly when it exists, is free
and has `b`'s region id, and is then absorbed into the left neighbour exactly when that exists,
is free and has `b`'s region id.  In each of the four cases the chain is the old one with the
absorbed nodes unlinked and nothing else changed, the returned node `m` starts where the
leftmost merged node started, and its extent `100 + size` is the sum of the extents of the
merged nodes (so it ends where the rightmost merged node ended when they lie back to back). -/
theorem merge_block_absorbs_free_neighbours (s : State) (pre post : List mem_block)
    (b : mem_block) (h : s.blocks = pre ++ b :: post)
    (hsz : ∀ c ∈ s.blocks, c.size + 100 < 2147483648) :
    ((∀ l : mem_block, pre.getLast? = some l → ¬ (l.free = true ∧ l.region_id = b.region_id)) →
     (∀ r : mem_block, post.head? = some r → ¬ (r.free = true ∧ r.region_id = b.region_id)) →
      merge_block s (some pre.length) = (s, some pre.length)) ∧
    (∀ (r : mem_block) (post1 : List mem_block), post = r :: post1 →
      (∀ l : mem_block, pre.getLast? = some l → ¬ (l.free = true ∧ l.region_id = b.region_id)) →
      r.free = true → r.region_id = b.region_id →
      ∃ m : mem_block,
        merge_block s (some pre.length) = ({ s with blocks := pre ++ m :: post1 }, some pre.length) ∧
        m = { b with size := b.size + r.size + 100 } ∧
        m.addr + (100 + m.size) = b.addr + (100 + b.size) + (100 + r.size)) ∧
    (∀ (l : mem_block) (pre1 : List mem_block), pre = pre1 ++ [l] →
      l.free = true → l.region_id = b.region_id →
      (∀ r : mem_block, post.head? = some r → ¬ (r.free = true ∧ r.region_id = b.region_id)) →
      ∃ m : mem_block,
        merge_block s (some pre.length) = ({ s with blocks := pre1 ++ m :: post }, some pre1.length) ∧
        m = { l with size := l.size + b.size + 100 } ∧
        m.addr + (100 + m.size) = l.addr + (100 + l.size) + (100 + b.size)) ∧
    (∀ (l : mem_block) (pre1 : List mem_block) (r : mem_block) (post1 : List mem_block),
      pre = pre1 ++ [l] → post = r :: post1 →
      l.free = true → l.region_id = b.region_id → r.free = true → r.region_id = b.region_id →
      ∃ m : mem_block,
        merge_block s (some pre.length)
          = ({ s with blocks := pre1 ++ m :: post1 }, some pre1.length) ∧
        m = { l with size := l.size + (b.size + r.size + 100) + 100 } ∧
        m.addr + (100 + m.size)
          = l.addr + (100 + l.size) + (100 + b.size) + (100 + r.size)) := by
  have hb : b.size + 100 < 2147483648 := hsz b (by rw [h]; simp)
  refine ⟨fun hl hr => ?_, fun r post1 hp hl hf hrid => ?_, fun l pre1 hp hf hrid hr => ?_,
    fun l pre1 r post1 hp hq hlf hlr hrf hrr => ?_⟩
  · rw [merge_block_eq s pre post b h, merge_block_right_keep pre post b hr,
      merge_block_left_keep pre post b hl]
    dsimp only
    rw [← h]
  · subst hp
    have hrs : r.size + 100 < 2147483648 := hsz r (by rw [h]; simp)
    refine ⟨{ b with size := b.size + r.size + 100 }, ?_, rfl, ?_⟩
    · rw [merge_block_eq s pre _ b h, merge_block_right_absorb pre post1 b r hf hrid,
        u64_add_header _ _ (by omega),
        merge_block_left_keep pre post1 { b with size := b.size + r.size + 100 } hl]
    · dsimp only
      omega
  · subst hp
    have hls : l.size + 100 < 2147483648 := hsz l (by rw [h]; simp)
    refine ⟨{ l with size := l.size + b.size + 100 }, ?_, rfl, ?_⟩
    · have e1 : (pre1 ++ [l]).length = pre1.length + 1 := by simp
      have e2 : (pre1 ++ [l]) ++ b :: post = pre1 ++ l :: b :: post := by simp
      rw [merge_block_eq s _ post b h, merge_block_right_keep _ post b hr, e1, e2,
        merge_block_left_absorb pre1 post l b hf hrid, u64_add_header _ _ (by omega)]
    · dsimp only
      omega
  · subst hp
    subst hq
    have hls : l.size + 100 < 2147483648 := hsz l (by rw [h]; simp)
    have hrs : r.size + 100 < 2147483648 := hsz r (by rw [h]; simp)
    refine ⟨{ l with size := l.size + (b.size + r.size + 100) + 100 }, ?_, rfl, ?_⟩
    · have e1 : (pre1 ++ [l]).length = pre1.length + 1 := by simp
      have e2 : (pre1 ++ [l]) ++ { b with size := b.size + r.size + 100 } :: post1
          = pre1 ++ l :: { b with size := b.size + r.size + 100 } :: post1 := by simp
      rw [merge_block_eq s _ _ b h, merge_block_right_absorb _ post1 b r hrf hrr,
        u64_add_header _ _ (by omega), e1, e2,
        merge_block_left_absorb pre1 post1 l { b with size := b.size + r.size + 100 } hlf hlr]
      dsimp only
      rw [u64_add_header _ _ (by omega)]
    · dsimp only
      omega

/-! ## `split_block` with payload sizes -/

/-- The two outcomes of `split_block` on the node `b` between `pre` and `post` when the sizes fit
an `int` and `page_size` holds the size of the tail: no split below `N + 8`, and otherwise a free
node of `b.size - N` bytes written at `b + N` and linked behind `b`, which keeps `N - 100`. -/
theorem split_block_cases (s : State) (pre post : List mem_block) (b : mem_block)
    (N : Nat) (h : s.blocks = pre ++ b :: post) (hb : b.size + 100 < 2147483648)
    (hN1 : 100 ≤ N) (hN2 : N < 2147483648) (htail : post = [] → s.page_size = b.size) :
    (b.size < N + 8 → split_block s (some pre.length) N = (s, none)) ∧
    (N + 8 ≤ b.size →
      ∃ st : State, split_block s (some pre.length) N = (st, some (pre.length + 1)) ∧
        st.blocks = pre ++ { b with size := N - 100 } ::
          { addr := b.addr + N, name := none, size := b.size - N, free := true,
            region_id := b.region_id } :: post ∧
        (post = [] → st.g_tail = b.addr + N ∧ st.page_size = ((b.size - N : Nat) : Int)) ∧
        (post ≠ [] → st.g_tail = s.g_tail ∧ st.page_size = s.page_size) ∧
        st.g_allocations = s.g_allocations ∧ st.g_regions = s.g_regions ∧
        st.mapped = s.mapped) := by
  have hx := split_x_exact b.size N hb hN2
  have hN : u64 ((N : Int) - 100) = N - 100 := by
    have := u64_sub N 100 hN1 (by omega)
    simpa using this
  refine ⟨fun hlt => ?_, fun hge => ?_⟩
  · rw [split_block_eq s pre post b N h]
    rewrite [hx, if_pos (by omega)]
    rfl
  · have hd : u64 ((b.size : Int) - N) = b.size - N := u64_sub b.size N (by omega) (by omega)
    by_cases hp : post = []
    · have hps : (u64 s.page_size : Int) = b.size := by
        rw [htail hp, u64_nat _ (by omega)]
      have hq : i32 (((b.size : Int) - N + 100) - 100) = ((b.size - N : Nat) : Int) := by
        rw [i32_id _ (by omega) (by omega)]
        omega
      have hq2 : u64 (((b.size - N : Nat) : Int)) = b.size - N := u64_nat _ (by omega)
      refine ⟨{ s with
                  blocks := pre ++ [{ b with size := N - 100 },
                    { addr := b.addr + N, name := none, size := b.size - N, free := true,
                      region_id := b.region_id }]
                  g_tail := b.addr + N
                  page_size := ((b.size - N : Nat) : Int) }, ?_, ?_, fun _ => ⟨rfl, rfl⟩,
        fun hne => absurd hp hne, rfl, rfl, rfl⟩
      · rw [split_block_eq s pre post b N h]
        rewrite [hx, if_neg (by omega), if_pos hp, hps, hx, if_neg (by omega), hq, hq2, hN]
        rfl
      · subst hp
        rfl
    · refine ⟨{ s with
                  blocks := pre ++ { b with size := N - 100 } ::
                    { addr := b.addr + N, name := none, size := b.size - N, free := true,
                      region_id := b.region_id } :: post }, ?_, rfl,
        fun hpp => absurd hpp hp, fun _ => ⟨rfl, rfl⟩, rfl, rfl, rfl⟩
      rw [split_block_eq s pre post b N h]
      rewrite [hx, if_neg (by omega), if_neg hp, hd, hN]
      rfl

/-- C17, as the code has it (the `size` field counts payload bytes, `N` counts the header too):
for the node `b` between `pre` and `post`, with `b.size + 100 < 2^31`, `100 <= N < 2^31`, and
`page_size` equal to `b.size` when `b` is the tail, `split_block(b, N)` returns `NULL` and
changes nothing when `b.size < N + 8` (that is `b.size - N + 100 < 108`); when
`b.size >= N + 8` it writes a free node of size `b.size - N` and of `b`'s region at
`b + N`, links it right behind `b` (as the new tail, with `g_tail` and `page_size` set to it,
when `b` was the tail), sets `b.size` to `N - 100` and returns the new node. -/
theorem split_block_payload_sizes (s : State) (pre post : List mem_block) (b : mem_block)
    (N : Nat) (h : s.blocks = pre ++ b :: post) (hb : b.size + 100 < 2147483648)
    (hN1 : 100 ≤ N) (hN2 : N < 2147483648) (htail : post = [] → s.page_size = b.size) :
    (b.size < N + 8 → split_block s (some pre.length) N = (s, none)) ∧
    (N + 8 ≤ b.size →
      ∃ st : State, split_block s (some pre.length) N = (st, some (pre.length + 1)) ∧
        st.blocks = pre ++ { b with size := N - 100 } ::
          { addr := b.addr + N, name := none, size := b.size - N, free := true,
            region_id := b.region_id } :: post ∧
        (post = [] → st.g_tail = b.addr + N ∧ st.page_size = ((b.size - N : Nat) : Int)) ∧
        (post ≠ [] → st.g_tail = s.g_tail ∧ st.page_size = s.page_size) ∧
        st.g_allocations = s.g_allocations ∧ st.g_regions = s.g_regions ∧
        st.mapped = s.mapped) :=
  split_block_cases s pre post b N h hb hN1 hN2 htail

/-- C17 fails as stated, on the block that fills a 4096-byte region (size field 3996):
`split_block(b, 168)`, the call `malloc(64)` makes, leaves 68 in the original's size field, not
168; and `split_block(b, 3896)`, the call `malloc(3796)` makes, splits off a block of 100 bytes
although `3996 - 3896 < 108`. -/
theorem split_block_counts_payload :
    split_block st_whole_region (some 0) 168
      = ({ blocks := [{ addr := 4096, name := some (List.replicate 32 0), size := 68,
                        free := false, region_id := 1 },
                      { addr := 4264, name := none, size := 3828, free := true, region_id := 1 }],
           g_tail := 4264, page_size := 3828, g_allocations := 1, g_regions := 1,
           mapped := [{ id := 1, base := 4096, len := 4096 }] }, some 1) ∧
    (68 : Nat) ≠ 168 ∧
    split_block st_whole_region (some 0) 3896
      = ({ blocks := [{ addr := 4096, name := some (List.replicate 32 0), size := 3796,
                        free := false, region_id := 1 },
                      { addr := 7992, name := none, size := 100, free := true, region_id := 1 }],
           g_tail := 7992, page_size := 100, g_allocations := 1, g_regions := 1,
           mapped := [{ id := 1, base := 4096, len := 4096 }] }, some 1) ∧
    3996 - 3896 < 108 ∧
    malloc env_first (some 4096) State.empty 64
      = Outcome.ret (split_block st_whole_region (some 0) 168).1 4196 ∧
    malloc env_first (some 4096) State.empty 3796
      = Outcome.ret (split_block st_whole_region (some 0) 3896).1 4196 := by
  decide

/-- Instance of C17 on the block that fills a 4096-byte region, with `N = 168`. -/
theorem split_block_payload_sizes_witness :
    ∃ st : State, split_block st_whole_region (some 0) 168 = (st, some 1) ∧
      st.blocks = [{ addr := 4096, name := some (List.replicate 32 0), size := 68,
                     free := false, region_id := 1 },
                   { addr := 4264, name := none, size := 3828, free := true, region_id := 1 }] ∧
      (([] : List mem_block) = [] → st.g_tail = 4264 ∧ st.page_size = 3828) ∧
      (([] : List mem_block) ≠ [] →
        st.g_tail = st_whole_region.g_tail ∧ st.page_size = st_whole_region.page_size) ∧
      st.g_allocations = st_whole_region.g_allocations ∧
      st.g_regions = st_whole_region.g_regions ∧ st.mapped = st_whole_region.mapped :=
  (split_block_payload_sizes st_whole_region []  []
    { addr := 4096, name := some (List.replicate 32 0), size := 3996, free := false,
      region_id := 1 } 168 rfl (by decide) (by decide) (by decide) (fun _ => rfl)).2 (by decide)

/-- Instance of C18 on the second block of `st_five_free`, whose two neighbours are free blocks
of the same region: the three blocks of region 1 become one block of 3996 bytes. -/
theorem merge_block_absorbs_free_neighbours_witness :
    ∃ m : mem_block,
      merge_block st_five_free (some 1)
        = ({ st_five_free with blocks := m :: st_five_free.blocks.drop 3 }, some 0) ∧
      m = { addr := 4096, name := some (List.replicate 32 0), size := 3996, free := true,
            region_id := 1 } ∧
      m.addr + (100 + m.size) = 4096 + (100 + 68) + (100 + 68) + (100 + 3660) :=
  (merge_block_absorbs_free_neighbours st_five_free
    [{ addr := 4096, name := some (List.replicate 32 0), size := 68, free := true,
       region_id := 1 }]
    [{ addr := 4432, name := none, size := 3660, free := true, region_id := 1 },
     { addr := 8192, name := some (List.replicate 32 0), size := 3996, free := true,
       region_id := 2 },
     { addr := 12288, name := some (List.replicate 32 0), size := 3996, free := true,
       region_id := 3 }]
    { addr := 4264, name := none, size := 68, free := true, region_id := 1 } rfl
    (by decide)).2.2.2 _ [] _ _ rfl rfl rfl rfl rfl rfl

/-- C20 on the code: in the state after `malloc(64)` and `free` of its block, `g_tail` is the
last node (address 4264) and `page_size` is its size (3828); `merge_block` on the first node
absorbs that last node, and afterwards the last node is the one at 4096 with size 3996 while
`g_tail` is still 4264 and `page_size` still 3828.  A following `malloc(64)` then splits with the
stale `page_size` and the two blocks of the region cover 3928 of its 4096 bytes. -/
theorem merge_block_leaves_stale_tail :
    (free st_one_alloc 4196).blocks.getLast?.map (fun t => (t.addr, (t.size : Int)))
      = some ((free st_one_alloc 4196).g_tail, (free st_one_alloc 4196).page_size) ∧
    merge_block (free st_one_alloc 4196) (some 0)
      = ({ blocks := [{ addr := 4096, name := some (List.replicate 32 0), size := 3996,
                        free := true, region_id := 1 }],
           g_tail := 4264, page_size := 3828, g_allocations := 1, g_regions := 1,
           mapped := [{ id := 1, base := 4096, len := 4096 }] }, some 0) ∧
    (4096 : Nat) ≠ 4264 ∧ (3996 : Int) ≠ 3828 ∧
    malloc env_first none (merge_block (free st_one_alloc 4196) (some 0)).1 64
      = Outcome.ret
          { blocks := [{ addr := 4096, name := some (List.replicate 32 0), size := 68,
                         free := false, region_id := 1 },
                       { addr := 4264, name := none, size := 3660, free := true, region_id := 1 }],
            g_tail := 4264, page_size := 3660, g_allocations := 2, g_regions := 1,
            mapped := [{ id := 1, base := 4096, len := 4096 }] } 4196 ∧
    (68 + 100) + (3660 + 100) ≠ 4096 := by
  decide

/-! ## Layout of the chain -/

/-- The two outcomes of `malloc_finish` in a state that satisfies the bookkeeping invariant. -/
theorem malloc_finish_cases {s : State} (hs : WF s) (pre post : List mem_block) (b : mem_block)
    (size1 : Nat) (h : s.blocks = pre ++ b :: post) (hsz : size1 + 100 < 2147483648) :
    ∃ st : State, malloc_finish s pre.length size1 = Outcome.ret st (b.addr + 100) ∧
      st.mapped = s.mapped ∧ st.g_regions = s.g_regions ∧
      st.g_allocations = s.g_allocations + 1 ∧
      ((b.size < size1 + 108 ∧ st.blocks = pre ++ { b with free := false } :: post) ∨
       (size1 + 108 ≤ b.size ∧
        st.blocks = pre ++ { b with free := false, size := size1 } ::
          { addr := b.addr + (size1 + 100), name := none, size := b.size - (size1 + 100),
            free := true, region_id := b.region_id } :: post)) := by
  have hbs : b.size + 100 < 2147483648 := hs.sizes b (by rw [h]; simp)
  have hN : u64 ((size1 : Int) + 100) = size1 + 100 := by
    have := u64_nat (size1 + 100) (by omega)
    rw [← this]
    push_cast
    rfl
  have hcases := split_block_cases
    { s with g_allocations := s.g_allocations + 1
             blocks := pre ++ { b with free := false } :: post }
    pre post { b with free := false } (size1 + 100) rfl hbs (by omega) (by omega)
    (fun hp => by
      subst hp
      exact (hs.tail b (by rw [h, chain_last_nil])).1)
  rw [malloc_finish_eq s pre post b size1 h, hN]
  by_cases hlt : b.size < size1 + 108
  · refine ⟨_, rfl, ?_⟩
    rw [hcases.1 (by dsimp only; omega)]
    exact ⟨rfl, rfl, rfl, Or.inl ⟨hlt, rfl⟩⟩
  · obtain ⟨st, hst, hbl, -, -, hal, hreg, hmap⟩ := hcases.2 (by dsimp only; omega)
    refine ⟨_, rfl, ?_⟩
    rw [hst]
    refine ⟨hmap, hreg, hal, Or.inr ⟨by omega, ?_⟩⟩
    rw [hbl]
    have e : size1 + 100 - 100 = size1 := by omega
    dsimp only
    rw [e]


/-- A chain around the node `b`: the pieces before and after it are chains and `b` is related to
its two neighbours. -/
theorem chain_around (R : mem_block → mem_block → Prop) (pre post : List mem_block)
    (b : mem_block) :
    List.Chain' R (pre ++ b :: post) ↔
      List.Chain' R pre ∧ List.Chain' R post ∧ (∀ x ∈ pre.getLast?, R x b) ∧
        (∀ y ∈ post.head?, R b y) := by
  rw [List.chain'_append, List.chain'_cons']
  simp only [List.head?_cons, Option.mem_def, Option.some.injEq]
  constructor
  · rintro ⟨h1, ⟨h2, h3⟩, h4⟩
    exact ⟨h1, h3, fun x hx => h4 x hx b rfl, h2⟩
  · rintro ⟨h1, h2, h3, h4⟩
    exact ⟨h1, ⟨h4, h2⟩, fun x hx y hy => hy ▸ h3 x hx⟩

/-- More recorded mappings keep neighbours linked. -/
theorem linked_mono (m1 m2 : List region) (h : ∀ r ∈ m1, r ∈ m2) (x y : mem_block)
    (hl : linked m1 x y) : linked m2 x y := by
  rcases hl with hl | ⟨h1, r, hr, h2⟩
  · exact Or.inl hl
  · exact Or.inr ⟨h1, r, h r hr, h2⟩

/-- The link to a node depends on its address and region only. -/
theorem linked_left (m : List region) (x b c : mem_block) (ha : c.addr = b.addr)
    (hr : c.region_id = b.region_id) (hl : linked m x b) : linked m x c := by
  unfold linked at *
  rw [ha, hr]
  exact hl

/-- The link from a node depends on its region and on where it ends only. -/
theorem linked_right (m : List region) (b c y : mem_block)
    (he : c.addr + 100 + c.size = b.addr + 100 + b.size)
    (hr : c.region_id = b.region_id) (hl : linked m b y) : linked m c y := by
  unfold linked at *
  rw [he, hr]
  exact hl

/-- The empty state satisfies the layout invariant. -/
theorem layout_empty : Layout State.empty where
  head := by intro b hb; simp [State.empty] at hb
  chain := by simp [State.empty]

/-- Rewriting fields other than address, size and region of the nodes keeps the layout. -/
theorem Layout.keep_nodes {s st : State} (hs : Layout s) (f : mem_block → mem_block)
    (haddr : ∀ b, (f b).addr = b.addr) (hsize : ∀ b, (f b).size = b.size)
    (hrid : ∀ b, (f b).region_id = b.region_id)
    (hb : st.blocks = s.blocks.map f) (hmap : st.mapped = s.mapped) : Layout st where
  head := by
    intro c hc
    rw [hb, List.head?_map] at hc
    cases hh : s.blocks.head? with
    | none => rw [hh] at hc; cases hc
    | some b =>
      rw [hh] at hc
      cases hc
      rw [hmap, haddr, hrid]
      exact hs.head b hh
  chain := by
    rw [hb, hmap, List.chain'_map]
    refine hs.chain.imp (fun x y hxy => ?_)
    unfold linked at *
    rw [haddr, haddr, hsize, hrid, hrid]
    exact hxy

/-- `free` keeps the layout. -/
theorem Layout.keep_free {s : State} (hs : Layout s) (ptr : Nat) : Layout (Allocator.free s ptr) := by
  unfold Allocator.free
  split
  · exact hs
  · dsimp only
    split
    · refine hs.keep_nodes (fun b => if b.addr = ptr - 100 then { b with free := true } else b)
        ?_ ?_ ?_ rfl rfl <;> intro b <;> dsimp only <;> split <;> rfl
    · exact hs

/-- Replacing the node `b` by the node `c` with the same address, size and region keeps the
layout. -/
theorem Layout.edit_one {s st : State} (hs : Layout s) (pre post : List mem_block)
    (b c : mem_block) (h : s.blocks = pre ++ b :: post) (hst : st.blocks = pre ++ c :: post)
    (hmap : st.mapped = s.mapped) (ha : c.addr = b.addr) (hz : c.size = b.size)
    (hr : c.region_id = b.region_id) : Layout st where
  head := by
    intro d hd
    rw [hmap]
    rw [hst] at hd
    cases pre with
    | nil =>
      simp only [List.nil_append, List.head?_cons, Option.some.injEq] at hd
      subst hd
      rw [ha, hr]
      exact hs.head b (by rw [h]; rfl)
    | cons x pre =>
      exact hs.head d (by rw [h]; exact hd)
  chain := by
    have hc := hs.chain
    rw [h, chain_around] at hc
    obtain ⟨h1, h2, h3, h4⟩ := hc
    rw [hst, hmap, chain_around]
    exact ⟨h1, h2, fun x hx => linked_left _ x b c ha hr (h3 x hx),
      fun y hy => linked_right _ b c y (by rw [ha, hz]) hr (h4 y hy)⟩

/-- Replacing the node `b` by two nodes that lie back to back over the bytes of `b` keeps the
layout. -/
theorem Layout.edit_two {s st : State} (hs : Layout s) (pre post : List mem_block)
    (b c t : mem_block) (h : s.blocks = pre ++ b :: post)
    (hst : st.blocks = pre ++ c :: t :: post) (hmap : st.mapped = s.mapped)
    (ha : c.addr = b.addr) (hr : c.region_id = b.region_id) (hr2 : t.region_id = b.region_id)
    (ht : t.addr = c.addr + 100 + c.size)
    (he : t.addr + 100 + t.size = b.addr + 100 + b.size) : Layout st where
  head := by
    intro d hd
    rw [hmap]
    rw [hst] at hd
    cases pre with
    | nil =>
      simp only [List.nil_append, List.head?_cons, Option.some.injEq] at hd
      subst hd
      rw [ha, hr]
      exact hs.head b (by rw [h]; rfl)
    | cons x pre =>
      exact hs.head d (by rw [h]; exact hd)
  chain := by
    have hc := hs.chain
    rw [h, chain_around] at hc
    obtain ⟨h1, h2, h3, h4⟩ := hc
    rw [hst, hmap, chain_around]
    refine ⟨h1, ?_, fun x hx => linked_left _ x b c ha hr (h3 x hx), ?_⟩
    · rw [List.chain'_cons']
      exact ⟨fun y hy => linked_right _ b t y he hr2 (h4 y hy), h2⟩
    · intro y hy
      simp only [List.head?_cons, Option.mem_def, Option.some.injEq] at hy
      subst hy
      exact Or.inl ⟨by rw [hr2, hr], ht⟩

/-- Marking a node used and splitting it keeps the layout. -/
theorem Layout.keep_finish {s st : State} (hs : Layout s) (hwf : WF s) (i size1 p : Nat)
    (hsz : size1 + 100 < 2147483648)
    (h : Allocator.malloc_finish s i size1 = Outcome.ret st p) : Layout st := by
  cases hb : s.blocks[i]? with
  | none => simp [Allocator.malloc_finish, hb] at h
  | some b =>
    obtain ⟨pre, post, hl, hlen⟩ := chain_cut s.blocks i b hb
    subst hlen
    obtain ⟨st1, hst1, hmap, -, -, hshape⟩ := malloc_finish_cases hwf pre post b size1 hl hsz
    rw [hst1] at h
    injection h with h1 h2
    subst h1
    rcases hshape with ⟨-, hbl⟩ | ⟨hge, hbl⟩
    · exact hs.edit_one pre post b _ hl hbl hmap rfl rfl rfl
    · refine hs.edit_two pre post b _ _ hl hbl hmap rfl rfl rfl ?_ ?_
      · dsimp only
        omega
      · dsimp only
        omega

/-- A newly mapped region keeps the layout: its block is the last node and opens the region
with the next id at the base of the mapping. -/
theorem Layout.keep_map {s : State} (hs : Layout s) (hwf : WF s) (a mem_size : Nat) :
    Layout (Allocator.map_region s a mem_size) := by
  obtain ⟨blk, hblocks, hrid, haddr, hmapped⟩ :
      ∃ blk : mem_block, (Allocator.map_region s a mem_size).blocks = s.blocks ++ [blk] ∧
        blk.region_id = s.g_regions + 1 ∧ blk.addr = a ∧
        (Allocator.map_region s a mem_size).mapped
          = s.mapped ++ [{ id := s.g_regions + 1, base := a, len := mem_size }] := by
    refine ⟨_, map_region_blocks s a mem_size, rfl, rfl, rfl⟩
  have hin : ∃ r ∈ (Allocator.map_region s a mem_size).mapped,
      r.id = blk.region_id ∧ r.base = blk.addr := by
    refine ⟨{ id := s.g_regions + 1, base := a, len := mem_size }, ?_, hrid.symm, haddr.symm⟩
    rw [hmapped]
    simp
  have hsub : ∀ r ∈ s.mapped, r ∈ (Allocator.map_region s a mem_size).mapped := by
    intro r hr
    rw [hmapped]
    exact List.mem_append_left _ hr
  constructor
  · intro d hd
    rw [hblocks] at hd
    cases hbs : s.blocks with
    | nil =>
      rw [hbs] at hd
      simp only [List.nil_append, List.head?_cons, Option.some.injEq] at hd
      subst hd
      exact hin
    | cons x xs =>
      rw [hbs] at hd
      simp only [List.cons_append, List.head?_cons, Option.some.injEq] at hd
      subst hd
      obtain ⟨r, hr, h1, h2⟩ := hs.head x (by rw [hbs]; rfl)
      exact ⟨r, hsub r hr, h1, h2⟩
  · rw [hblocks]
    refine List.Chain'.append (hs.chain.imp (fun x y => linked_mono _ _ hsub x y))
      (List.chain'_singleton _) ?_
    intro x hx y hy
    simp only [List.head?_cons, Option.mem_def, Option.some.injEq] at hy
    subst hy
    have hxm : x ∈ s.blocks := List.mem_of_mem_getLast? hx
    have hle := hwf.block_region_le x hxm
    exact Or.inr ⟨by omega, hin⟩


/-- `malloc` keeps the layout, for a request that fits an `int` together with the header and a
page size that is a multiple of 8. -/
theorem Layout.keep_malloc {s st : State} (hs : Layout s) (hwf : WF s) (env : Env) (os : Option Nat)
    (size p : Nat) (h8 : (8 : Int) ∣ env.pagesize) (hsz : size + 100 < 2147483648)
    (h : Allocator.malloc env os s size = Outcome.ret st p) : Layout st := by
  have hy : i32 (u64 ((size : Int) + 100)) = (size : Int) + 100 := by
    rw [i32_u64, i32_id _ (by omega) (by omega)]
  obtain ⟨ha1, ha2, ha3⟩ := aligned_size_small size hsz
  unfold Allocator.malloc at h
  rw [hy] at h
  cases hloop : page_loop page_fuel 0 ((size : Int) + 100) env.pagesize with
  | none =>
    rw [hloop, malloc_sized] at h
    exact Outcome.noConfusion h
  | some r =>
    rw [hloop, malloc_sized] at h
    have h80 : (8 : Int) ∣ 0 := Int.dvd_zero 8
    obtain ⟨hr1, hr2, hr3, hr4⟩ :=
      page_loop_sound _ _ r h8 page_fuel 0 hloop h80 (by omega) (by omega)
    have hr5 : (aligned_size size : Int) + 100 ≤ r := by omega
    have hu : (u64 r : Int) = r := u64_id r (by omega) (by omega)
    cases hre : reuse env s (aligned_size size) with
    | some i =>
      rw [hre, malloc_place] at h
      exact hs.keep_finish hwf i _ p (by omega) h
    | none =>
      rw [hre] at h
      cases os with
      | none =>
        rw [malloc_place] at h
        exact Outcome.noConfusion h
      | some a =>
        rw [malloc_place] at h
        exact (hs.keep_map hwf a (u64 r)).keep_finish
          (hwf.map_region a (u64 r) (by omega) (by omega)) _ _ p (by omega) h

/-- Every call that returns keeps the layout, when its request fits an `int` together with the
header and the page size is a multiple of 8. -/
theorem Layout.keep_run {s st : State} (hs : Layout s) (hwf : WF s) (env : Env) (c : Call) (p : Nat)
    (h8 : (8 : Int) ∣ env.pagesize) (hc : c.small)
    (h : c.run env s = Outcome.ret st p) : Layout st := by
  cases c with
  | malloc size os =>
    exact hs.keep_malloc hwf env os size p h8 (hc size rfl) h
  | malloc_name size name os =>
    simp only [Call.run, Allocator.malloc_name] at h
    cases hm : Allocator.malloc env os s size with
    | ret s1 ptr =>
      have hs1 : Layout s1 := hs.keep_malloc hwf env os size ptr h8 (hc size rfl) hm
      rw [hm, malloc_name_set] at h
      split_ifs at h with hp
      · injection h with h1 h2
        subst h1
        refine hs1.keep_nodes
          (fun b => if b.addr = ptr - 100 then { b with name := some (strncpy32 name) } else b)
          ?_ ?_ ?_ rfl rfl <;> intro b <;> dsimp only <;> split <;> rfl
      · cases h
        exact hs1
    | hang => rw [hm, malloc_name_set] at h; exact Outcome.noConfusion h
    | null_write => rw [hm, malloc_name_set] at h; exact Outcome.noConfusion h
    | wild => rw [hm, malloc_name_set] at h; exact Outcome.noConfusion h
  | calloc nmemb size os =>
    simp only [Call.run, Allocator.calloc] at h
    cases hm : Allocator.malloc env os s (u64 ((nmemb : Int) * size)) with
    | ret s1 ptr =>
      have hs1 : Layout s1 := hs.keep_malloc hwf env os _ ptr h8 (hc _ rfl) hm
      rw [hm, calloc_fill] at h
      split_ifs at h with hp
      cases h
      exact hs1
    | hang => rw [hm, calloc_fill] at h; exact Outcome.noConfusion h
    | null_write => rw [hm, calloc_fill] at h; exact Outcome.noConfusion h
    | wild => rw [hm, calloc_fill] at h; exact Outcome.noConfusion h
  | realloc ptr size os =>
    simp only [Call.run, Allocator.realloc] at h
    split_ifs at h with h0 h1
    · exact hs.keep_malloc hwf env os size p h8 (hc size rfl) h
    · cases h
      exact hs.keep_free ptr
    · cases hf : s.blocks.find? (fun b => b.addr = ptr - 100) with
      | none => rw [hf] at h; exact Outcome.noConfusion h
      | some block =>
        rw [hf] at h
        dsimp only at h
        split_ifs at h with h2
        · cases h
          exact hs
        · cases hm : Allocator.malloc env os s size with
          | ret s1 temp =>
            have hs1 : Layout s1 := hs.keep_malloc hwf env os size temp h8 (hc size rfl) hm
            rw [hm, realloc_move] at h
            split_ifs at h with hp
            · injection h with h1 h2
              subst h1
              refine hs1.keep_nodes
                (fun b => if b.addr = ptr - 100 then { b with free := true } else b)
                ?_ ?_ ?_ rfl rfl <;> intro b <;> dsimp only <;> split <;> rfl
            · cases h
              exact hs1
          | hang => rw [hm, realloc_move] at h; exact Outcome.noConfusion h
          | null_write => rw [hm, realloc_move] at h; exact Outcome.noConfusion h
          | wild => rw [hm, realloc_move] at h; exact Outcome.noConfusion h
  | free ptr =>
    simp only [Call.run] at h
    cases h
    exact hs.keep_free ptr

/-- Every state reachable by calls whose requests fit an `int` satisfies the layout
invariant. -/
theorem Reach.layout {ps : Int} (h8 : (8 : Int) ∣ ps) {s : State} (h : Reach ps Call.small s) :
    Layout s := by
  induction h with
  | init => exact layout_empty
  | step env c s s1 p hr hps hc hrun ih =>
    exact ih.keep_run (Reach.wf h8 hr) env c p (by rw [hps]; exact h8) hc hrun

/-- Along a chain whose neighbours are `linked`, region ids never decrease. -/
theorem linked_region_le (m : List region) (l : List mem_block)
    (h : List.Chain' (linked m) l) :
    ∀ (i j : Nat) (x y : mem_block), i ≤ j → l[i]? = some x → l[j]? = some y →
      x.region_id ≤ y.region_id := by
  have hp : List.Pairwise (fun x y : mem_block => x.region_id ≤ y.region_id) l := by
    have hc : List.Chain' (fun x y : mem_block => x.region_id ≤ y.region_id) l := by
      refine h.imp (fun x y hxy => ?_)
      rcases hxy with ⟨h1, -⟩ | ⟨h1, -⟩ <;> omega
    haveI : IsTrans mem_block (fun x y : mem_block => x.region_id ≤ y.region_id) :=
      ⟨fun a b c hab hbc => le_trans hab hbc⟩
    exact List.chain'_iff_pairwise.mp hc
  intro i j x y hij hx hy
  rcases Nat.lt_or_eq_of_le hij with hlt | heq
  · rw [List.pairwise_iff_getElem] at hp
    obtain ⟨hi, hxe⟩ := List.getElem?_eq_some_iff.mp hx
    obtain ⟨hj, hye⟩ := List.getElem?_eq_some_iff.mp hy
    have := hp i j hi hj hlt
    rw [hxe, hye] at this
    exact this
  · subst heq
    rw [hx] at hy
    cases hy
    exact le_refl _

/-- Two neighbours of a chain whose neighbours are `linked`. -/
theorem linked_get (m : List region) (l : List mem_block) (h : List.Chain' (linked m) l)
    (i : Nat) (x y : mem_block) (hx : l[i]? = some x) (hy : l[i + 1]? = some y) :
    linked m x y := by
  obtain ⟨pre, post, hl, hlen⟩ := chain_cut l i x hx
  subst hlen
  rw [hl, chain_get_succ] at hy
  rw [hl, chain_around] at h
  exact h.2.2.2 y (by
    cases post with
    | nil => simp at hy
    | cons z zs =>
      simp only [List.getElem?_cons_zero, Option.some.injEq] at hy
      subst hy
      rfl)

/-- C19: in every state reachable from the empty state by calls whose requests satisfy
`size + 100 < 2^31` (page size a multiple of 8, any strategy): the blocks of a region are
consecutive in the chain; the first block of the chain, and every block whose predecessor
belongs to another region, starts at the base of its region's mapping; a block that follows a
block of the same region starts at `start + 100 + size` of that block; for every region the
sum of `100 + size` over its blocks is the mapped byte count, every block belonging to a
recorded region; and `page_size` is the size field of the last block of the chain. -/
theorem chain_layout_of_reachable (ps : Int) (h8 : (8 : Int) ∣ ps) (s : State)
    (hs : Reach ps Call.small s) :
    (∀ (i j k : Nat) (x y z : mem_block), i ≤ j → j ≤ k → s.blocks[i]? = some x →
      s.blocks[j]? = some y → s.blocks[k]? = some z → x.region_id = z.region_id →
      y.region_id = x.region_id) ∧
    (∀ b : mem_block, s.blocks.head? = some b →
      ∃ r ∈ s.mapped, r.id = b.region_id ∧ r.base = b.addr) ∧
    (∀ (i : Nat) (x y : mem_block), s.blocks[i]? = some x → s.blocks[i + 1]? = some y →
      (y.region_id = x.region_id → y.addr = x.addr + 100 + x.size) ∧
      (y.region_id ≠ x.region_id → ∃ r ∈ s.mapped, r.id = y.region_id ∧ r.base = y.addr)) ∧
    (∀ r ∈ s.mapped, region_bytes s.blocks r.id = r.len) ∧
    (∀ b ∈ s.blocks, ∃ r ∈ s.mapped, r.id = b.region_id) ∧
    (∀ b : mem_block, s.blocks.getLast? = some b → s.page_size = b.size) := by
  have hwf := Reach.wf h8 hs
  have hl := Reach.layout h8 hs
  refine ⟨fun i j k x y z hij hjk hx hy hz hxz => ?_, hl.head, fun i x y hx hy => ?_,
    hwf.bytes, hwf.ids, fun b hb => (hwf.tail b hb).1⟩
  · have h1 := linked_region_le s.mapped s.blocks hl.chain i j x y hij hx hy
    have h2 := linked_region_le s.mapped s.blocks hl.chain j k y z hjk hy hz
    omega
  · have := linked_get s.mapped s.blocks hl.chain i x y hx hy
    rcases this with ⟨h1, h2⟩ | ⟨h1, h2⟩
    · exact ⟨fun _ => h2, fun hne => absurd h1 hne⟩
    · exact ⟨fun heq => by omega, fun _ => h2⟩

/-- Instance of C19 on `st_five_free`: five blocks in three regions. -/
theorem chain_layout_of_reachable_witness :
    (∀ (i j k : Nat) (x y z : mem_block), i ≤ j → j ≤ k → st_five_free.blocks[i]? = some x →
      st_five_free.blocks[j]? = some y → st_five_free.blocks[k]? = some z →
      x.region_id = z.region_id → y.region_id = x.region_id) ∧
    (∀ b : mem_block, st_five_free.blocks.head? = some b →
      ∃ r ∈ st_five_free.mapped, r.id = b.region_id ∧ r.base = b.addr) ∧
    (∀ (i : Nat) (x y : mem_block), st_five_free.blocks[i]? = some x →
      st_five_free.blocks[i + 1]? = some y →
      (y.region_id = x.region_id → y.addr = x.addr + 100 + x.size) ∧
      (y.region_id ≠ x.region_id →
        ∃ r ∈ st_five_free.mapped, r.id = y.region_id ∧ r.base = y.addr)) ∧
    (∀ r ∈ st_five_free.mapped, region_bytes st_five_free.blocks r.id = r.len) ∧
    (∀ b ∈ st_five_free.blocks, ∃ r ∈ st_five_free.mapped, r.id = b.region_id) ∧
    (∀ b : mem_block, st_five_free.blocks.getLast? = some b →
      st_five_free.page_size = b.size) :=
  chain_layout_of_reachable 4096 (by decide) st_five_free reach_five_free

/-! ## Release followed by the same request -/

end Allocator
